import Mathlib

/-!
Verification of the ashlet completion daemon against its specification.

The Go sources are shallowly embedded: Go strings become `List Char`
(the commands and model outputs under scrutiny are ASCII, so Go's byte
offsets coincide with character offsets), Go `float64` score arithmetic
becomes exact `ℚ` arithmetic, and Go's in-place slice operations become
pure list functions.  Every definition is translated from the repository
sources (file and function named in its doc comment) except where a doc
comment says `Modelled from the spec:`, which marks behaviour of a
third-party collaborator (the `mvdan.cc/sh` shell parser) that is not
part of this repository.
-/

set_option maxRecDepth 100000

namespace Ashlet

/-- The double-quote character `"`. -/
def dqChar : Char := Char.ofNat 34

/-- The single-quote character. -/
def sqChar : Char := Char.ofNat 39

/-- The backslash character. -/
def bsChar : Char := Char.ofNat 92

/-- ASCII whitespace, as recognised by Go's `unicode.IsSpace` /
`strings.TrimSpace` on ASCII input (space, tab, newline, vertical tab,
form feed, carriage return). -/
def isSpaceChar (c : Char) : Bool :=
  c = ' ' || c = '\t' || c = '\n' || c = Char.ofNat 11 || c = Char.ofNat 12 || c = '\r'

/-- Go `strings.TrimLeft(s, " \t\n\x0b\x0c\r")` restricted to ASCII input;
used to model `strings.TrimSpace` from the left. -/
def trimLeftSpace (s : List Char) : List Char := s.dropWhile isSpaceChar

/-- Trim ASCII whitespace from the right. -/
def trimRightSpace (s : List Char) : List Char := (s.reverse.dropWhile isSpaceChar).reverse

/-- Go `strings.TrimSpace` on ASCII input. -/
def trimSpace (s : List Char) : List Char := trimRightSpace (trimLeftSpace s)

/-- Go `strings.TrimRight(s, "\n")`: strip trailing newlines
(`generate/main.go`, `Engine.Complete`). -/
def trimRightNewlines (s : List Char) : List Char :=
  (s.reverse.dropWhile (fun c => c = '\n')).reverse

/-- Go `strings.TrimLeft(s, " \t")` (`generate/main.go`, `Engine.Complete`). -/
def trimLeftSpaceTab (s : List Char) : List Char :=
  s.dropWhile (fun c => c = ' ' || c = '\t')

/-- `collapseSpaces` aux loop carrying Go's `prevSpace` flag
(`generate/main.go:529`). -/
def collapseSpacesAux : Bool → List Char → List Char
  | _, [] => []
  | prevSpace, c :: cs =>
    if c = ' ' then
      if prevSpace then collapseSpacesAux true cs
      else ' ' :: collapseSpacesAux true cs
    else c :: collapseSpacesAux false cs

/-- `collapseSpaces` replaces runs of multiple spaces with a single space
(`generate/main.go:529`). -/
def collapseSpaces (s : List Char) : List Char := collapseSpacesAux false s

/-- A completion candidate (`ashlet.go`, type `Candidate`).  `confidence`
is Go `float64`; all confidences and ranking weights produced by the code
are exact decimal fractions, modelled in `ℚ`.  `cursorPos` is the
optional post-apply byte offset (`nil` pointer becomes `none`). -/
structure Candidate where
  completion : List Char
  cursorPos : Option Nat
  confidence : ℚ
deriving DecidableEq, Repr

/-- `commonPrefix` returns the longest common prefix of two strings
(`generate/main.go:682`). -/
def commonPrefixOf : List Char → List Char → List Char
  | x :: xs, y :: ys => if x = y then x :: commonPrefixOf xs ys else []
  | _, _ => []

/-- `quoteExtensionLength` returns the number of characters before the
first closing quote (double or single) in `suffix`, and 0 if no quote is
found (`generate/main.go:697`). -/
def quoteExtensionLength (suffix : List Char) : Nat :=
  match suffix.findIdx? (fun c => c = dqChar || c = sqChar) with
  | some i => i
  | none => 0

/-- The raw re-ranking score of one candidate given the length of the
shared prefix: `suffixLen*0.2 + quoteExt*0.8`
(`generate/main.go:739-743`). -/
def suffixScore (lcpLen : Nat) (c : Candidate) : ℚ :=
  let suffix := c.completion.drop lcpLen
  (suffix.length : ℚ) * 0.2 + (quoteExtensionLength suffix : ℚ) * 0.8

/-- Stable insertion into a weight-descending list: the new element goes
before the first element whose weight it matches or exceeds.  Together
with `sortWeighted` this is extensionally the unique stable descending
sort, i.e. Go's `sort.SliceStable(items, weight i > weight j)`
(`generate/main.go:772`). -/
def stableInsert (x : Candidate × ℚ) : List (Candidate × ℚ) → List (Candidate × ℚ)
  | [] => [x]
  | y :: ys => if y.2 ≤ x.2 then x :: y :: ys else y :: stableInsert x ys

/-- Stable descending sort by weight; models `sort.SliceStable`
(`generate/main.go:772`). -/
def sortWeighted : List (Candidate × ℚ) → List (Candidate × ℚ)
  | [] => []
  | x :: xs => stableInsert x (sortWeighted xs)

/-- The position-based confidence `0.95 - 0.15·i`, floored at `0.1`
(`generate/main.go:465-470,777-783`). -/
def posConfidence (i : Nat) : ℚ :=
  if (0.95 : ℚ) - (i : ℚ) * 0.15 < 0.1 then 0.1 else 0.95 - (i : ℚ) * 0.15

/-- Position-based confidence assignment loop, position `i` onwards. -/
def reassignConfidencesFrom (i : Nat) : List Candidate → List Candidate
  | [] => []
  | c :: cs => { c with confidence := posConfidence i } :: reassignConfidencesFrom (i + 1) cs

/-- The position-based confidence loop shared by `parseCandidates`,
`parseCandidatesFallback` and `sortCandidates`
(`generate/main.go:465-470,777-783`). -/
def reassignConfidences (cs : List Candidate) : List Candidate :=
  reassignConfidencesFrom 0 cs

/-- `sortCandidates` re-orders candidates by the quote-extension
heuristic (`generate/main.go:710-784`): when all completions share a
prefix of length ≥ max(3, len(input)/2), score suffixes, min-max
normalise, weight `0.2·confidence + 0.8·normalized`, sort stably by
descending weight and re-assign positional confidences.  The Go function
mutates its slice; the model returns the new list. -/
def sortCandidates (cs : List Candidate) (input : List Char) : List Candidate :=
  match cs with
  | c0 :: c1 :: rest =>
    let lcp := (c1 :: rest).foldl (fun acc c => commonPrefixOf acc c.completion) c0.completion
    let minLen := max 3 (input.length / 2)
    if lcp.length < minLen then c0 :: c1 :: rest
    else
      let score := suffixScore lcp.length
      let minRaw := (c1 :: rest).foldl (fun m c => min m (score c)) (score c0)
      let maxRaw := (c1 :: rest).foldl (fun m c => max m (score c)) (score c0)
      let rangeRaw := maxRaw - minRaw
      let weight := fun c : Candidate =>
        c.confidence * 0.2 + 0.8 * (if 0 < rangeRaw then (score c - minRaw) / rangeRaw else 0)
      let items := (c0 :: c1 :: rest).map fun c => (c, weight c)
      reassignConfidences ((sortWeighted items).map Prod.fst)
  | cs => cs

/-- The key of a candidate that re-ranking must not touch: its completion
text together with its cursor position. -/
def candKey (c : Candidate) : List Char × Option Nat := (c.completion, c.cursorPos)

theorem stableInsert_perm (x : Candidate × ℚ) (l : List (Candidate × ℚ)) :
    (stableInsert x l).Perm (x :: l) := by
  induction l with
  | nil => simp [stableInsert]
  | cons y ys ih =>
    by_cases h : y.2 ≤ x.2
    · simp [stableInsert, h]
    · simp only [stableInsert, h, if_false]
      exact (ih.cons y).trans (List.Perm.swap x y ys)

theorem sortWeighted_perm (l : List (Candidate × ℚ)) : (sortWeighted l).Perm l := by
  induction l with
  | nil => simp [sortWeighted]
  | cons x xs ih => exact (stableInsert_perm x (sortWeighted xs)).trans (ih.cons x)

theorem reassignConfidencesFrom_map_key (i : Nat) (cs : List Candidate) :
    (reassignConfidencesFrom i cs).map candKey = cs.map candKey := by
  induction cs generalizing i with
  | nil => rfl
  | cons c cs ih => simp [reassignConfidencesFrom, candKey, ih]

theorem reassignConfidences_map_key (cs : List Candidate) :
    (reassignConfidences cs).map candKey = cs.map candKey :=
  reassignConfidencesFrom_map_key 0 cs

/-! ### Claim C10: re-ranking only reorders -/

/-- C10: for every candidate list and input, `sortCandidates` leaves the
multiset of (completion, cursor_pos) pairs unchanged — it never adds,
drops, or rewrites a completion or a cursor position; only the order and
the confidence fields change. -/
theorem c10_sortCandidates_only_reorders (cs : List Candidate) (input : List Char) :
    ((sortCandidates cs input).map candKey).Perm (cs.map candKey) := by
  match cs with
  | [] => simp [sortCandidates]
  | [c] => simp [sortCandidates]
  | c0 :: c1 :: rest =>
    simp only [sortCandidates]
    split
    · exact List.Perm.refl _
    · rw [reassignConfidences_map_key, List.map_map]
      refine ((sortWeighted_perm _).map _).trans ?_
      rw [List.map_map]
      exact List.Perm.of_eq (by simp [Function.comp_def, candKey])

/-! ### Claim C1: the concrete quote-aware re-rank scenario -/

/-- The C1 input `git commit -m "feat: implement new funct` (40 bytes),
which is also the longest common prefix of the three candidates. -/
def c1Input : List Char :=
  "git commit -m ".data ++ [dqChar] ++ "feat: implement new funct".data

/-- First parsed candidate: completion ends `" && git push`, confidence 0.95. -/
def c1CandA : Candidate :=
  ⟨c1Input ++ [dqChar] ++ " && git push".data, none, 0.95⟩

/-- Second parsed candidate: completion ends `ion"`, confidence 0.80. -/
def c1CandB : Candidate :=
  ⟨c1Input ++ "ion".data ++ [dqChar], none, 0.80⟩

/-- Third parsed candidate: completion ends `"`, confidence 0.65. -/
def c1CandC : Candidate :=
  ⟨c1Input ++ [dqChar], none, 0.65⟩

/-- C1: re-ranking the three candidates for the C1 input returns them in
the order `ion"`, `" && git push`, `"` with confidences 0.95, 0.80, 0.65. -/
theorem c1_quote_aware_rerank :
    sortCandidates [c1CandA, c1CandB, c1CandC] c1Input =
      [{ c1CandB with confidence := 0.95 },
       { c1CandA with confidence := 0.80 },
       { c1CandC with confidence := 0.65 }] := by
  have hA : suffixScore c1Input.length c1CandA = 13 / 5 := by
    have h1 : List.drop c1Input.length c1CandA.completion = [dqChar] ++ " && git push".data := by
      decide
    simp only [suffixScore, h1]
    rw [show quoteExtensionLength ([dqChar] ++ " && git push".data) = 0 from by decide,
      show ([dqChar] ++ " && git push".data).length = 13 from by decide]
    norm_num
  have hB : suffixScore c1Input.length c1CandB = 16 / 5 := by
    have h1 : List.drop c1Input.length c1CandB.completion = "ion".data ++ [dqChar] := by decide
    simp only [suffixScore, h1]
    rw [show quoteExtensionLength ("ion".data ++ [dqChar]) = 3 from by decide,
      show ("ion".data ++ [dqChar]).length = 4 from by decide]
    norm_num
  have hC : suffixScore c1Input.length c1CandC = 1 / 5 := by
    have h1 : List.drop c1Input.length c1CandC.completion = [dqChar] := by decide
    simp only [suffixScore, h1]
    rw [show quoteExtensionLength [dqChar] = 0 from by decide,
      show ([dqChar] : List Char).length = 1 from by decide]
    norm_num
  simp only [sortCandidates, List.foldl, List.map]
  rw [if_neg (by decide)]
  rw [show commonPrefixOf (commonPrefixOf c1CandA.completion c1CandB.completion)
        c1CandC.completion = c1Input from by decide]
  rw [hA, hB, hC]
  norm_num [sortWeighted, stableInsert, reassignConfidences, reassignConfidencesFrom,
    posConfidence, c1CandA, c1CandB, c1CandC]

/-! ### Quote-content filtering (`generate/main.go:604-679`) -/

/-- The backtick character. -/
def btChar : Char := Char.ofNat 96

/-- `filterQuoteContent` scanning loop.  The state `none` is the outer
loop of `generate/main.go:633`; `some q` is the inner loop skipping the
content of a `q`-quoted string (escaped characters skipped in pairs). -/
def fqcAux : Option Char → List Char → List Char
  | _, [] => []
  | none, c :: cs =>
    if c = dqChar || c = sqChar then c :: fqcAux (some c) cs else c :: fqcAux none cs
  | some q, c :: cs =>
    if c = bsChar then
      match cs with
      | _ :: cs' => fqcAux (some q) cs'
      | [] => []
    else if c = q then q :: fqcAux none cs
    else fqcAux (some q) cs

/-- `filterQuoteContent` strips text inside quotes from a command string:
double-quoted content becomes `""`, single-quoted content becomes `''`,
escaped quotes inside quoted strings are handled
(`generate/main.go:633`; same function as `index.FilterQuoteContent`). -/
def filterQuoteContent (cmd : List Char) : List Char := fqcAux none cmd

/-- `filterQuoteContentSlice` applies `filterQuoteContent` to each element
and deduplicates (`generate/main.go:668`; same as
`index.FilterQuoteContentSlice`). -/
def filterQuoteContentSliceAux (seen : List (List Char)) : List (List Char) → List (List Char)
  | [] => []
  | cmd :: cmds =>
    let filtered := filterQuoteContent cmd
    if filtered ∈ seen then filterQuoteContentSliceAux seen cmds
    else filtered :: filterQuoteContentSliceAux (filtered :: seen) cmds

/-- See `filterQuoteContentSliceAux`. -/
def filterQuoteContentSlice (cmds : List (List Char)) : List (List Char) :=
  filterQuoteContentSliceAux [] cmds

/-- `findLastClosingQuotePos` scanning loop: `i` is the current byte
index, `acc` the last matched closing-quote index found so far
(`generate/main.go:604`).  State `some q` is the inner loop looking for
the unescaped closing `q`. -/
def flcAux : Option Char → Nat → Option Nat → List Char → Option Nat
  | _, _, acc, [] => acc
  | none, i, acc, c :: cs =>
    if c = dqChar || c = sqChar then flcAux (some c) (i + 1) acc cs
    else flcAux none (i + 1) acc cs
  | some q, i, acc, c :: cs =>
    if c = bsChar then
      match cs with
      | _ :: cs' => flcAux (some q) (i + 2) acc cs'
      | [] => acc
    else if c = q then flcAux none (i + 1) (some i) cs
    else flcAux (some q) (i + 1) acc cs

/-- `findLastClosingQuotePos` returns the byte index of the last matched
closing quote, or `none` (Go: `-1`) if none is found
(`generate/main.go:604`). -/
def findLastClosingQuotePos (s : List Char) : Option Nat := flcAux none 0 none s

/-- `filterCandidateQuotes` recursion with Go's `seen` set as a list
(`generate/main.go:560-600`). -/
def fcqAux (inputHasQuotes : Bool) (seen : List (List Char)) : List Candidate → List Candidate
  | [] => []
  | c :: cs =>
    let cmd := if !inputHasQuotes then filterQuoteContent c.completion else c.completion
    if cmd ∈ seen then fcqAux inputHasQuotes seen cs
    else
      let cursorPos :=
        match c.cursorPos with
        | some p => some p
        | none =>
          match findLastClosingQuotePos cmd with
          | some pos => if trimSpace (cmd.drop (pos + 1)) = [] then some pos else none
          | none => none
      { completion := cmd, cursorPos := cursorPos, confidence := c.confidence } ::
        fcqAux inputHasQuotes (cmd :: seen) cs

/-- `filterCandidateQuotes` applies quote-content filtering to candidates:
when the input has no quotes, each completion is quote-stripped and the
list re-deduplicated; in either case a candidate without an explicit
cursor gets one just before its last closing quote when nothing follows
that quote (`generate/main.go:560`). -/
def filterCandidateQuotes (candidates : List Candidate) (input : List Char) : List Candidate :=
  match candidates with
  | [] => []
  | cs =>
    let inputHasQuotes := input.any fun c => c = dqChar || c = sqChar
    fcqAux inputHasQuotes [] cs

/-! ### Model-reply parsing (`generate/main.go:340-526`) -/

/-- A parsed `<command>` tag: its collapsed text and the byte offset of
the `█` cursor sentinel, if present (`generate/main.go:347`, Go `-1`
becomes `none`). -/
structure CommandTag where
  text : List Char
  cursor : Option Nat
deriving DecidableEq, Repr

/-- Match a literal pattern at the head of the list and return the rest. -/
def matchLit (pat l : List Char) : Option (List Char) :=
  if pat.isPrefixOf l then some (l.drop pat.length) else none

/-- Try to match the regex `<command\s*>([^<]*)</command>` at the head of
`l`; on success return the capture and the remainder after the match
(`generate/main.go:354`, `reCommand`). -/
def tryCommandAt (l : List Char) : Option (List Char × List Char) :=
  match matchLit "<command".data l with
  | none => none
  | some rest1 =>
    match (rest1.dropWhile isSpaceChar).head? with
    | some '>' =>
      let rest3 := (rest1.dropWhile isSpaceChar).tail
      let cap := rest3.takeWhile fun c => c ≠ '<'
      match matchLit "</command>".data (rest3.dropWhile fun c => c ≠ '<') with
      | some rest5 => some (cap, rest5)
      | none => none
    | _ => none

/-- Leftmost non-overlapping scan for `reCommand` matches: on failure the
regex engine advances one character; `fuel` bounds the scan by the input
length. -/
def findCommandMatchesAux (fuel : Nat) (l : List Char) : List (List Char) :=
  match fuel with
  | 0 => []
  | fuel + 1 =>
    match l with
    | [] => []
    | c :: cs =>
      match tryCommandAt (c :: cs) with
      | some (cap, rest) => cap :: findCommandMatchesAux fuel rest
      | none => findCommandMatchesAux fuel cs

/-- All `reCommand` captures, leftmost first
(`reCommand.FindAllStringSubmatch`). -/
def findCommandMatches (l : List Char) : List (List Char) :=
  findCommandMatchesAux l.length l

/-- `parseCommands` extracts `<command>` tags from a candidate block's
inner content; the `█` sentinel's byte offset (taken in the raw capture,
before trimming and space collapsing) becomes the cursor
(`generate/main.go:369-385`). -/
def parseCommands (content : List Char) : List CommandTag :=
  (findCommandMatches content).filterMap fun raw =>
    let cursor := raw.findIdx? fun c => c = '█'
    let raw' :=
      match cursor with
      | some idx => raw.take idx ++ raw.drop (idx + 1)
      | none => raw
    let text := collapseSpaces (trimSpace raw')
    if text = [] then none else some ⟨text, cursor⟩

/-- `chainSeparator` returns the separator between existing input and an
appended command: if the input (ignoring trailing spaces/tabs) ends with
a chain operator, `""` when the input ends with a space and `" "`
otherwise; else `" && "` (`generate/main.go:390`). -/
def chainSeparator (input : List Char) : List Char :=
  let trimmed := (input.reverse.dropWhile fun c => c = ' ' || c = '\t').reverse
  if "&&".data.isSuffixOf trimmed || "||".data.isSuffixOf trimmed ||
      "|".data.isSuffixOf trimmed || ";".data.isSuffixOf trimmed then
    if " ".data.isSuffixOf input then [] else [' ']
  else " && ".data

/-- Scan a candidate tag's attribute text for `\btype="(replace|append)"`;
`prevWord` tracks whether the previous character was a word character
(for the `\b` boundary; the scan starts after `<candidate`, whose last
character is a word character). -/
def findTypeKind (prevWord : Bool) : List Char → Option String
  | [] => none
  | c :: cs =>
    let here : Option String :=
      if prevWord then none
      else
        match matchLit ("type=".data ++ [dqChar]) (c :: cs) with
        | none => none
        | some rest =>
          match matchLit ("replace".data ++ [dqChar]) rest with
          | some _ => some "replace"
          | none =>
            match matchLit ("append".data ++ [dqChar]) rest with
            | some _ => some "append"
            | none => none
    match here with
    | some kind => some kind
    | none => findTypeKind (c.isAlphanum || c = '_') cs

/-- Lazy scan (`(.*?)`) for the first occurrence of `marker`; returns the
content before it and the remainder after it. -/
def findMarkerAux (fuel : Nat) (marker : List Char) (acc : List Char) (l : List Char) :
    Option (List Char × List Char) :=
  match fuel with
  | 0 => none
  | fuel + 1 =>
    if marker.isPrefixOf l then some (acc.reverse, l.drop marker.length)
    else
      match l with
      | [] => none
      | c :: cs => findMarkerAux fuel marker (c :: acc) cs

/-- Try to match `reCandidate` — the regex
`(?s)<candidate[^>]*\btype="(replace|append)"[^>]*>(.*?)</candidate>` —
at the head of `l`; return the type capture, the content capture and the
remainder (`generate/main.go:353`). -/
def tryCandidateAt (l : List Char) : Option (String × List Char × List Char) :=
  match matchLit "<candidate".data l with
  | none => none
  | some rest1 =>
    let attrs := rest1.takeWhile fun c => c ≠ '>'
    match (rest1.dropWhile fun c => c ≠ '>').head? with
    | some '>' =>
      let rest3 := (rest1.dropWhile fun c => c ≠ '>').tail
      match findTypeKind true attrs with
      | some kind =>
        match findMarkerAux (rest3.length + 1) "</candidate>".data [] rest3 with
        | some (content, after) => some (kind, content, after)
        | none => none
      | none => none
    | _ => none

/-- Leftmost non-overlapping scan for `reCandidate` matches. -/
def parseCandidateBlocksAux (fuel : Nat) (l : List Char) : List (String × List Char) :=
  match fuel with
  | 0 => []
  | fuel + 1 =>
    match l with
    | [] => []
    | c :: cs =>
      match tryCandidateAt (c :: cs) with
      | some (kind, content, rest) => (kind, content) :: parseCandidateBlocksAux fuel rest
      | none => parseCandidateBlocksAux fuel cs

/-- `parseCandidateBlocks` extracts `<candidate>` blocks from model
output (`generate/main.go:358`). -/
def parseCandidateBlocks (output : List Char) : List (String × List Char) :=
  parseCandidateBlocksAux output.length output

/-- `firstWord` returns the first space-delimited word of `s`
(`generate/main.go:548`). -/
def firstWord (s : List Char) : List Char :=
  let s := trimSpace s
  match s.findIdx? fun c => c = ' ' with
  | some i => if 0 < i then s.take i else s
  | none => s

/-- `DefaultMaxCandidates` (`generate/main.go:19`). -/
def DefaultMaxCandidates : Nat := 4

/-- The `<candidate>`-block assembly loop of `parseCandidates`:
`n` counts accepted candidates, `seen` is the dedup set
(`generate/main.go:403-462`). -/
def parseCandidatesAux (input : List Char) (max : Nat) :
    Nat → List (List Char) → List (String × List Char) → List Candidate
  | _, _, [] => []
  | n, seen, (typ, content) :: blocks =>
    if max ≤ n then []
    else
      let commands := parseCommands content
      if commands = [] then parseCandidatesAux input max n seen blocks
      else
        let joined := List.intercalate " && ".data (commands.map CommandTag.text)
        let sep := chainSeparator input
        let completion := if typ = "append" then input ++ sep ++ joined else joined
        let cursorOffset := if typ = "append" then input.length + sep.length else 0
        let completion := trimSpace completion
        if completion = [] || completion ∈ seen then parseCandidatesAux input max n seen blocks
        else
          let cursorPos := commands.findSome? fun cmd => cmd.cursor.map (· + cursorOffset)
          { completion := completion, cursorPos := cursorPos, confidence := -1 } ::
            parseCandidatesAux input max (n + 1) (completion :: seen) blocks

/-- The line-based fallback loop of `parseCandidatesFallback`
(`generate/main.go:477-526`). -/
def parseCandidatesFallbackAux (trimmedInput : List Char) (max : Nat) :
    Nat → List (List Char) → List (List Char) → List Candidate
  | _, _, [] => []
  | n, seen, rawLine :: ls =>
    if max ≤ n then []
    else
      let line := trimSpace rawLine
      if line = [] || "$ ".data.isPrefixOf line || "<".data.isPrefixOf line then
        parseCandidatesFallbackAux trimmedInput max n seen ls
      else
        let candidate := trimSpace ((line.dropWhile (· = btChar)).reverse.dropWhile (· = btChar)).reverse
        if trimmedInput = [] || firstWord candidate = firstWord trimmedInput then
          let command := collapseSpaces (trimSpace candidate)
          if command = [] || command ∈ seen then
            parseCandidatesFallbackAux trimmedInput max n seen ls
          else
            { completion := command, cursorPos := none, confidence := -1 } ::
              parseCandidatesFallbackAux trimmedInput max (n + 1) (command :: seen) ls
        else parseCandidatesFallbackAux trimmedInput max n seen ls

/-- `parseCandidatesFallback` handles model output without tags: accept
backtick-stripped lines that share their first word with the input, then
assign position-based confidences (`generate/main.go:477`). -/
def parseCandidatesFallback (output input : List Char) (max : Nat) : List Candidate :=
  reassignConfidences
    (parseCandidatesFallbackAux (trimSpace input) max 0 [] ((trimSpace output).splitOn '\n'))

/-- `parseCandidates` parses tagged `<candidate>` blocks (or falls back to
line parsing), deduplicates, computes append completions and cursor
offsets, and assigns position-based confidences
(`generate/main.go:403`). -/
def parseCandidates (output input : List Char) (max : Nat) : List Candidate :=
  let blocks := parseCandidateBlocks output
  if blocks = [] then parseCandidatesFallback output input max
  else reassignConfidences (parseCandidatesAux input max 0 [] blocks)

/-! ### Claim C3: cursor bounds -/

/-- A model reply whose `<command>` text carries whitespace before the
`█` sentinel: `<candidate type="replace"><command>echo x █</command></candidate>`. -/
def c3Output : List Char :=
  "<candidate type=".data ++ [dqChar] ++ "replace".data ++ [dqChar] ++
    "><command>echo x █</command></candidate>".data

/-- The C3 user input. -/
def c3Input : List Char := "echo".data

/-- C3: the cursor-bounds invariant fails.  For the reply `c3Output` the
full post-model pipeline (`parseCandidates`, then `filterCandidateQuotes`,
then `sortCandidates`, exactly as in `Engine.Complete`) returns the single
candidate `echo x` with `cursor_pos = 7`, but `len("echo x") = 6`: the
sentinel's offset is taken in the raw capture before `TrimSpace` and
`collapseSpaces` shorten the text, so the stored cursor exceeds the
completion length. -/
theorem c3_cursor_exceeds_completion_length :
    ((sortCandidates (filterCandidateQuotes (parseCandidates c3Output c3Input 4) c3Input)
        c3Input).map candKey) = [("echo x".data, some 7)] ∧
      ("echo x".data).length < 7 := by
  constructor <;> decide

/-! ### Directory-context cache field construction (`generate/dircache.go`) -/

/-- The 512-byte cap on DirContext string fields
(`generate/dircache.go:37`, `fieldMaxBytes`). -/
def fieldMaxBytes : Nat := 512

/-- `truncate` truncates `s` to `maxBytes`, appending `"..."` if truncated
(`generate/dircache.go:388`). -/
def truncate (s : List Char) (maxBytes : Nat) : List Char :=
  if s.length ≤ maxBytes then s else s.take maxBytes ++ "...".data

/-- Accumulator loop for `asciiFields`; `acc` is the current word,
reversed. -/
def asciiFieldsAux : List Char → List Char → List (List Char)
  | acc, [] => if acc = [] then [] else [acc.reverse]
  | acc, c :: cs =>
    if isSpaceChar c then
      if acc = [] then asciiFieldsAux [] cs else acc.reverse :: asciiFieldsAux [] cs
    else asciiFieldsAux (c :: acc) cs

/-- Go `strings.Fields` on ASCII input: split around runs of whitespace. -/
def asciiFields (s : List Char) : List (List Char) := asciiFieldsAux [] s

/-- `strings.Join(fields, " ")`. -/
def joinSpace (ws : List (List Char)) : List Char := (ws.intersperse [' ']).flatten

/-- The `cwd_listing` field as built by the first `Gather` fetcher:
`truncate(strings.Join(strings.Fields(out), " "), fieldMaxBytes)`
(`generate/dircache.go:92-94`). -/
def cwdListingField (out : List Char) : List Char :=
  truncate (joinSpace (asciiFields out)) fieldMaxBytes

/-- `toSingleLine` joins a multi-line string into one space-separated line
and caps the length (`generate/dircache.go:333`). -/
def toSingleLine (s : List Char) (maxBytes : Nat) : List Char :=
  if s = [] then [] else truncate (joinSpace (asciiFields s)) maxBytes

/-! ### Claim C9: DirContext byte caps -/

/-- C9 counterexample: a 513-byte directory listing produces a
`cwd_listing` field of 515 bytes — `truncate` appends the three-byte
`"..."` marker on top of the 512-byte cap, so the stored field exceeds
the cap. -/
theorem c9_counterexample_cap_exceeded :
    (cwdListingField (List.replicate 513 'a')).length = 515 ∧
      ¬ (cwdListingField (List.replicate 513 'a')).length ≤ fieldMaxBytes := by
  constructor <;> decide

/-- C9 (amended): a field built through `truncate` with the 512-byte cap
is at most 515 bytes (cap plus the three-byte `"..."` marker), is the
unchanged source when the source is within the cap, and ends with the
`"..."` marker exactly when the source overflowed the cap. -/
theorem c9_truncate_bounds (s : List Char) :
    (truncate s fieldMaxBytes).length ≤ fieldMaxBytes + 3 ∧
      (s.length ≤ fieldMaxBytes → truncate s fieldMaxBytes = s) ∧
      (fieldMaxBytes < s.length → "...".data.IsSuffix (truncate s fieldMaxBytes)) ∧
      (cwdListingField s).length ≤ fieldMaxBytes + 3 := by
  have h3 : ("...".data).length = 3 := by decide
  refine ⟨?_, ?_, ?_, ?_⟩
  · unfold truncate
    split
    · omega
    · rw [List.length_append, List.length_take, h3]
      have := Nat.min_le_left fieldMaxBytes s.length
      omega
  · intro h; simp [truncate, h]
  · intro h
    unfold truncate
    rw [if_neg (by omega)]
    exact ⟨s.take fieldMaxBytes, rfl⟩
  · unfold cwdListingField truncate
    split
    · omega
    · rw [List.length_append, List.length_take, h3]
      have := Nat.min_le_left fieldMaxBytes (joinSpace (asciiFields s)).length
      omega

/-- Witness for `c9_truncate_bounds` at a concrete overflowing source. -/
theorem c9_truncate_bounds_witness :
    fieldMaxBytes < (List.replicate 600 'b').length ∧
      "...".data.IsSuffix (truncate (List.replicate 600 'b') fieldMaxBytes) :=
  ⟨by decide, (c9_truncate_bounds (List.replicate 600 'b')).2.2.1 (by decide)⟩

/-! ### History-context gathering (`generate/context.go`) and config
validation (`config.go`) -/

/-- Gathered history context for one completion request
(`generate/context.go:14`, type `Info`). -/
structure Info where
  recentCommands : List (List Char)
  relevantCommands : List (List Char)
deriving DecidableEq, Repr

/-- Outcome of the 10-second block on the `indexDone` channel in
`Gatherer.Gather`'s `no_raw_history` branch: the `select` either sees the
index finished (with or without a recorded indexing error), times out, or
observes request cancellation (`generate/context.go:91-104`). -/
inductive IndexWaitOutcome where
  | indexDone (indexErr : Bool)
  | timedOut
  | cancelled
deriving DecidableEq, Repr

/-- The `SearchRelevant` guard shared by both branches of `Gather`:
the result is kept only when the call returned without error and
non-empty (`generate/context.go:94,115`).  `none` models an error
return. -/
def keepSearch (searchRelevant : Option (List (List Char))) : List (List Char) :=
  match searchRelevant with
  | some cmds => if cmds.isEmpty then [] else cmds
  | none => []

/-- `Gatherer.Gather` (`generate/context.go:81-124`): when
`no_raw_history` is set AND embedding is enabled, block on index
completion and return only relevant commands; otherwise return the last
20 recent commands plus, when embedding is enabled and indexing has
already finished (`initDoneNow`), a non-blocking semantic search. -/
def gatherModel (noRawHistory embeddingEnabled : Bool) (wait : IndexWaitOutcome)
    (searchRelevant : Option (List (List Char))) (recent20 : List (List Char))
    (initDoneNow : Bool) : Info :=
  if noRawHistory && embeddingEnabled then
    { recentCommands := [],
      relevantCommands :=
        match wait with
        | .indexDone false => keepSearch searchRelevant
        | _ => [] }
  else
    { recentCommands := recent20,
      relevantCommands :=
        if embeddingEnabled && initDoneNow then keepSearch searchRelevant else [] }

/-- The generation section of the configuration, restricted to the field
the claims consult (`config.go:20`, `GenerationConfig`). -/
structure GenerationConfig where
  noRawHistory : Option Bool
deriving DecidableEq, Repr

/-- The embedding section of the configuration (`config.go:32`,
`EmbeddingConfig`), restricted to the fields `EmbeddingEnabled`
consults. -/
structure EmbeddingConfig where
  baseURL : String
  apiKey : String
deriving DecidableEq, Repr

/-- Configuration (`config.go:12`, `Config`), restricted to the fields
the claims consult. -/
structure Config where
  generation : GenerationConfig
  embedding : EmbeddingConfig
deriving DecidableEq, Repr

/-- The process environment, with Go `os.Getenv` semantics: an unset
variable reads as the empty string. -/
def Env := String → String

/-- `ResolveEmbeddingBaseURL`: environment override, then config value
(`config.go:186`). -/
def resolveEmbeddingBaseURL (env : Env) (cfg : Config) : String :=
  if env "ASHLET_EMBEDDING_API_BASE_URL" ≠ "" then env "ASHLET_EMBEDDING_API_BASE_URL"
  else cfg.embedding.baseURL

/-- `ResolveEmbeddingAPIKey`: environment override, then config value
(`config.go:198`). -/
def resolveEmbeddingAPIKey (env : Env) (cfg : Config) : String :=
  if env "ASHLET_EMBEDDING_API_KEY" ≠ "" then env "ASHLET_EMBEDDING_API_KEY"
  else cfg.embedding.apiKey

/-- `EmbeddingEnabled`: both the embedding base URL and API key resolve
non-empty (`config.go:221`). -/
def embeddingEnabled (env : Env) (cfg : Config) : Bool :=
  resolveEmbeddingBaseURL env cfg ≠ "" && resolveEmbeddingAPIKey env cfg ≠ ""

/-- The warning emitted by `ValidateConfig` (`config.go:143`). -/
def noRawHistoryWarning : String :=
  "no_raw_history is enabled but embedding API key is not configured; history context will be unavailable"

/-- `ValidateConfig` (`config.go:137-146`): warn when `no_raw_history` is
set and true while embedding is disabled. -/
def validateConfig (env : Env) (cfg : Config) : List String :=
  if cfg.generation.noRawHistory = some true && !embeddingEnabled env cfg then
    [noRawHistoryWarning]
  else []

/-! ### Claim C8: the no_raw_history gate -/

/-- C8 counterexample: with `no_raw_history = true` and embedding
disabled, `Gather` does NOT return an empty history context — the guard
`noRawHistory && embeddingEnabled` is false, so the default branch runs
and `recent` is the last-20 list (here, non-empty). -/
theorem c8_counterexample_recent_not_empty :
    (gatherModel true false .timedOut none ["ls".data] false).recentCommands = ["ls".data] ∧
      ["ls".data] ≠ ([] : List (List Char)) := by
  constructor <;> decide

/-- C8 (amended): with `no_raw_history = true` and embedding disabled,
`Gather` takes the default path — `recent` is exactly the last-20 recent
command list (in general non-empty) and `related` is empty — and
`ValidateConfig` reports the configuration warning for this
combination. -/
theorem c8_no_raw_history_gate (wait : IndexWaitOutcome)
    (searchRelevant : Option (List (List Char))) (recent20 : List (List Char))
    (initDoneNow : Bool) (env : Env) (cfg : Config) :
    gatherModel true false wait searchRelevant recent20 initDoneNow =
        { recentCommands := recent20, relevantCommands := [] } ∧
      (cfg.generation.noRawHistory = some true → embeddingEnabled env cfg = false →
        validateConfig env cfg = [noRawHistoryWarning]) := by
  constructor
  · simp [gatherModel]
  · intro h1 h2
    simp [validateConfig, h1, h2]

/-- Witness for `c8_no_raw_history_gate` at a concrete configuration
(empty environment, `no_raw_history = true`, no embedding credentials). -/
theorem c8_no_raw_history_gate_witness :
    gatherModel true false .timedOut none ["git status".data] false =
        { recentCommands := ["git status".data], relevantCommands := [] } ∧
      validateConfig (fun _ => "") ⟨⟨some true⟩, ⟨"", ""⟩⟩ = [noRawHistoryWarning] := by
  have h := c8_no_raw_history_gate .timedOut none ["git status".data] false
    (fun _ => "") ⟨⟨some true⟩, ⟨"", ""⟩⟩
  exact ⟨h.1, h.2 rfl (by decide)⟩

/-! ### IPC server: per-session pre-emption (`unnamed/part_003`,
`Server.handleConn`)

Each completion connection is one process.  Its handler runs, in order:
register (take the session mutex, cancel any in-flight entry for the
session, install itself), complete (run `engine.Complete`; the
post-completion `ctx.Err()` check is the single atomic read of the
cancellation flag, splitting into `checkCancelled`/`checkClear`),
write (`conn.Write`), and the deferred cleanup (self-cancel plus
conditional table delete), which runs inside the `checkCancelled` and
`write` steps.  The interleaving of handlers is the transition system
`Step`. -/

/-- A completion request as the server sees it: session id and request
id (`ashlet.go`, fields `session_id` / `request_id`). -/
structure SReq where
  sid : String
  rid : Int

/-- Program counter of one connection handler. -/
inductive PC where
  | idle
  | working
  | writing
  | suppressed
  | done
deriving DecidableEq, Repr

/-- Pointwise update of a `Nat`-indexed map. -/
def updF {α : Type} (f : Nat → α) (i : Nat) (v : α) : Nat → α :=
  fun j => if j = i then v else f j

/-- Pointwise update of the session table. -/
def updT (f : String → Option Nat) (k : String) (v : Option Nat) : String → Option Nat :=
  fun k' => if k' = k then v else f k'

/-- Server state: per-request program counters and cancellation flags,
the session table (`Server.sessions`), and the replies written so far
(request index paired with the echoed `request_id`). -/
structure SrvState where
  pc : Nat → PC
  cancelled : Nat → Bool
  table : String → Option Nat
  written : List (Nat × Int)

/-- The initial server state: no request arrived, nothing written. -/
def initState : SrvState :=
  { pc := fun _ => .idle, cancelled := fun _ => false, table := fun _ => none, written := [] }

/-- On arrival with a non-empty session id, cancel the in-flight entry
for that session, if any (`handleConn`: `if prev, ok := s.sessions[sid];
ok { prev.cancel() }`). -/
def cancelPrev (s : SrvState) (sid : String) : Nat → Bool :=
  if sid = "" then s.cancelled
  else
    match s.table sid with
    | some j => updF s.cancelled j true
    | none => s.cancelled

/-- The deferred cleanup of `handleConn`: delete the session entry only
when it still carries this handler's request id. -/
def cleanupSelf (reqs : Nat → SReq) (s : SrvState) (i : Nat) : String → Option Nat :=
  if (reqs i).sid = "" then s.table
  else
    match s.table (reqs i).sid with
    | some j =>
      if (reqs j).rid = (reqs i).rid then updT s.table (reqs i).sid none else s.table
    | none => s.table

/-- One interleaving step of the server (`Server.handleConn`,
`unnamed/part_003:85-157`). -/
inductive Step (reqs : Nat → SReq) : SrvState → SrvState → Prop where
  | arrive (i : Nat) (s : SrvState) (h : s.pc i = .idle) :
      Step reqs s
        { pc := updF s.pc i .working
          cancelled := cancelPrev s (reqs i).sid
          table :=
            if (reqs i).sid = "" then s.table else updT s.table (reqs i).sid (some i)
          written := s.written }
  | checkCancelled (i : Nat) (s : SrvState) (h : s.pc i = .working)
      (hc : s.cancelled i = true) :
      Step reqs s
        { pc := updF s.pc i .suppressed
          cancelled := updF s.cancelled i true
          table := cleanupSelf reqs s i
          written := s.written }
  | checkClear (i : Nat) (s : SrvState) (h : s.pc i = .working)
      (hc : s.cancelled i = false) :
      Step reqs s { s with pc := updF s.pc i .writing }
  | write (i : Nat) (s : SrvState) (h : s.pc i = .writing) :
      Step reqs s
        { pc := updF s.pc i .done
          cancelled := updF s.cancelled i true
          table := cleanupSelf reqs s i
          written := s.written ++ [(i, (reqs i).rid)] }

/-- Zero or more interleaving steps. -/
abbrev Steps (reqs : Nat → SReq) : SrvState → SrvState → Prop :=
  Relation.ReflTransGen (Step reqs)

/-- Reachability from the initial state. -/
abbrev SrvReachable (reqs : Nat → SReq) (s : SrvState) : Prop := Steps reqs initState s

/-- Replies are only written by handlers that finished, and always echo
the request's own id. -/
def WrittenInv (reqs : Nat → SReq) (s : SrvState) : Prop :=
  ∀ i r, (i, r) ∈ s.written → s.pc i = .done ∧ r = (reqs i).rid

theorem cancelPrev_true {s : SrvState} {i : Nat} (sid : String)
    (h : s.cancelled i = true) : cancelPrev s sid i = true := by
  unfold cancelPrev
  split
  · exact h
  · match hm : s.table sid with
    | some j =>
      simp only [hm, updF]
      split <;> simp [h]
    | none => simp [hm, h]

theorem step_preserves_writtenInv {reqs : Nat → SReq} {b c : SrvState}
    (hstep : Step reqs b c) (hinv : WrittenInv reqs b) : WrittenInv reqs c := by
  cases hstep with
  | arrive i s h =>
    intro j r hj
    obtain ⟨hdone, hr⟩ := hinv j r hj
    refine ⟨?_, hr⟩
    simp only [updF]
    split
    · next hji => rw [hji] at hdone; rw [hdone] at h; cases h
    · exact hdone
  | checkCancelled i s h hc =>
    intro j r hj
    obtain ⟨hdone, hr⟩ := hinv j r hj
    refine ⟨?_, hr⟩
    simp only [updF]
    split
    · next hji => rw [hji] at hdone; rw [hdone] at h; cases h
    · exact hdone
  | checkClear i s h hc =>
    intro j r hj
    obtain ⟨hdone, hr⟩ := hinv j r hj
    refine ⟨?_, hr⟩
    simp only [updF]
    split
    · next hji => rw [hji] at hdone; rw [hdone] at h; cases h
    · exact hdone
  | write i s h =>
    intro j r hj
    simp only [List.mem_append, List.mem_singleton] at hj
    cases hj with
    | inl hold =>
      obtain ⟨hdone, hr⟩ := hinv j r hold
      refine ⟨?_, hr⟩
      simp only [updF]
      split
      · rfl
      · exact hdone
    | inr hnew =>
      have hj1 : j = i := congrArg Prod.fst hnew
      have hj2 : r = (reqs i).rid := congrArg Prod.snd hnew
      subst hj1
      exact ⟨by simp [updF], hj2⟩

theorem reachable_writtenInv {reqs : Nat → SReq} {s : SrvState}
    (h : SrvReachable reqs s) : WrittenInv reqs s := by
  induction h with
  | refl => intro i r hir; cases hir
  | tail _ hstep ih => exact step_preserves_writtenInv hstep ih

/-- A handler that has been cancelled while still working (or already
suppressed) never writes: this is the stuck configuration. -/
def StuckCancelled (s : SrvState) (i : Nat) : Prop :=
  (s.pc i = .working ∨ s.pc i = .suppressed) ∧ s.cancelled i = true

theorem step_preserves_stuck {reqs : Nat → SReq} {b c : SrvState} {i : Nat}
    (hstep : Step reqs b c) (hst : StuckCancelled b i) :
    StuckCancelled c i ∧ ∀ r, (i, r) ∈ c.written → (i, r) ∈ b.written := by
  obtain ⟨hpc, hcan⟩ := hst
  cases hstep with
  | arrive k s h =>
    have hk : k ≠ i := by
      intro he; rw [he] at h
      cases hpc with
      | inl hw => rw [hw] at h; cases h
      | inr hw => rw [hw] at h; cases h
    refine ⟨⟨?_, cancelPrev_true _ hcan⟩, fun r hr => hr⟩
    simpa [updF, hk.symm] using hpc
  | checkCancelled k s h hc =>
    by_cases hk : k = i
    · subst hk
      refine ⟨⟨Or.inr (by simp [updF]), by simp [updF]⟩, fun r hr => hr⟩
    · replace hk : k ≠ i := hk
      refine ⟨⟨?_, ?_⟩, fun r hr => hr⟩
      · simpa [updF, hk.symm] using hpc
      · simpa [updF, hk.symm] using hcan
  | checkClear k s h hc =>
    have hk : k ≠ i := by
      intro he; rw [he] at hc; rw [hcan] at hc; cases hc
    refine ⟨⟨?_, hcan⟩, fun r hr => hr⟩
    simpa [updF, hk.symm] using hpc
  | write k s h =>
    have hk : k ≠ i := by
      intro he; rw [he] at h
      cases hpc with
      | inl hw => rw [hw] at h; cases h
      | inr hw => rw [hw] at h; cases h
    refine ⟨⟨?_, ?_⟩, ?_⟩
    · simpa [updF, hk.symm] using hpc
    · simpa [updF, hk.symm] using hcan
    · intro r hr
      simp only [List.mem_append, List.mem_singleton] at hr
      cases hr with
      | inl hold => exact hold
      | inr hnew =>
        exfalso
        exact hk (congrArg Prod.fst hnew).symm

theorem steps_preserve_stuck {reqs : Nat → SReq} {b c : SrvState} {i : Nat}
    (hsteps : Steps reqs b c) (hst : StuckCancelled b i) :
    StuckCancelled c i ∧ ∀ r, (i, r) ∈ c.written → (i, r) ∈ b.written := by
  induction hsteps with
  | refl => exact ⟨hst, fun r hr => hr⟩
  | tail hbc hstep ih =>
    obtain ⟨hmid, htrans⟩ := ih
    obtain ⟨hend, htrans'⟩ := step_preserves_stuck hstep hmid
    exact ⟨hend, fun r hr => htrans r (htrans' r hr)⟩

/-! ### Claim C7: session pre-emption -/

/-- Two requests in session `"s"`, request ids 1 and 2. -/
def c7Reqs : Nat → SReq := fun i => if i = 0 then ⟨"s", 1⟩ else ⟨"s", 2⟩

/-- State after request 0 arrives. -/
def c7s1 : SrvState :=
  { pc := updF initState.pc 0 .working
    cancelled := cancelPrev initState (c7Reqs 0).sid
    table := updT initState.table (c7Reqs 0).sid (some 0)
    written := [] }

/-- State after request 0 passes its cancellation check (not cancelled). -/
def c7s2 : SrvState := { c7s1 with pc := updF c7s1.pc 0 .writing }

/-- State after request 1 arrives (cancelling request 0). -/
def c7s3 : SrvState :=
  { pc := updF c7s2.pc 1 .working
    cancelled := cancelPrev c7s2 (c7Reqs 1).sid
    table := updT c7s2.table (c7Reqs 1).sid (some 1)
    written := [] }

/-- State after request 0 writes its reply anyway. -/
def c7s4 : SrvState :=
  { pc := updF c7s3.pc 0 .done
    cancelled := updF c7s3.cancelled 0 true
    table := cleanupSelf c7Reqs c7s3 0
    written := c7s3.written ++ [(0, (c7Reqs 0).rid)] }

/-- State after request 1 passes its check. -/
def c7s5 : SrvState := { c7s4 with pc := updF c7s4.pc 1 .writing }

/-- Final state: request 1 writes its reply too. -/
def c7s6 : SrvState :=
  { pc := updF c7s5.pc 1 .done
    cancelled := updF c7s5.cancelled 1 true
    table := cleanupSelf c7Reqs c7s5 1
    written := c7s5.written ++ [(1, (c7Reqs 1).rid)] }

/-- C7 counterexample: an interleaving in which request 1 (same session
`"s"`) arrives and cancels request 0 while request 0 is in flight (it has
not yet written), and yet request 0's reply IS written — the cancellation
check `ctx.Err()` happens once, before `conn.Write`, so a cancellation
landing between check and write does not suppress the reply.  The claim
"the older request['s] reply is never written to its connection" is
therefore false for this reachable trace. -/
theorem c7_counterexample_reply_after_preemption :
    Steps c7Reqs initState c7s2 ∧
      Step c7Reqs c7s2 c7s3 ∧
      c7s2.pc 0 = .writing ∧ c7s2.written = [] ∧
      c7s3.cancelled 0 = true ∧
      Steps c7Reqs c7s3 c7s6 ∧
      c7s6.written = [(0, 1), (1, 2)] := by
  refine ⟨?_, ?_, rfl, rfl, ?_, ?_, ?_⟩
  · exact .tail (.tail .refl (.arrive 0 initState rfl)) (.checkClear 0 c7s1 rfl rfl)
  · exact .arrive 1 c7s2 rfl
  · rfl
  · exact .tail (.tail (.tail .refl (.write 0 c7s3 rfl)) (.checkClear 1 c7s4 rfl rfl))
      (.write 1 c7s5 rfl)
  · rfl

/-- C7 (amended): if the pre-empting request's cancellation lands while
the older request is still in its engine call — i.e. before the older
handler performs its single post-completion cancellation check — then the
older request's reply is never written, in this state or any future one;
and every reply that is written echoes its own request's id unchanged. -/
theorem c7_preemption_before_check_suppresses (reqs : Nat → SReq) (s s' : SrvState)
    (i : Nat) (hre : SrvReachable reqs s) (hst : Steps reqs s s')
    (hc : s.cancelled i = true) (hw : s.pc i = PC.working) :
    (∀ r, (i, r) ∉ s'.written) ∧ (∀ j r, (j, r) ∈ s'.written → r = (reqs j).rid) := by
  have hre' : SrvReachable reqs s' := Relation.ReflTransGen.trans hre hst
  refine ⟨?_, fun j r hj => ((reachable_writtenInv hre') j r hj).2⟩
  intro r hr
  have hnotyet : (i, r) ∉ s.written := by
    intro hmem
    have := ((reachable_writtenInv hre) i r hmem).1
    rw [hw] at this; cases this
  exact hnotyet ((steps_preserve_stuck hst ⟨Or.inl hw, hc⟩).2 r hr)

/-- The state reached by [request 0 arrives; request 1 arrives and
cancels it]: request 0 is cancelled while still working. -/
def c7w2 : SrvState :=
  { pc := updF c7s1.pc 1 .working
    cancelled := cancelPrev c7s1 (c7Reqs 1).sid
    table := updT c7s1.table (c7Reqs 1).sid (some 1)
    written := [] }

/-- Witness for `c7_preemption_before_check_suppresses`: the trace
[request 0 arrives; request 1 arrives and cancels it] reaches a state
where request 0 is cancelled while still working, so its reply is absent
from every extension (here: the state itself). -/
theorem c7_preemption_witness : (0, 1) ∉ c7w2.written ∧ c7w2.cancelled 0 = true := by
  refine ⟨?_, rfl⟩
  exact (c7_preemption_before_check_suppresses c7Reqs c7w2 c7w2 0
    (.tail (.tail .refl (.arrive 0 initState rfl)) (.arrive 1 c7s1 rfl))
    .refl rfl rfl).1 1

/-! ### Redaction (`index/redact.go`)

`RedactCommand` parses the command with the third-party `mvdan.cc/sh`
parser and walks the tree; on parse failure it falls back to
`regexRedact`, three regex replacement passes.  The regex passes are
repository code and are embedded exactly: each Go regexp becomes a
deterministic scanner with the same leftmost, non-overlapping,
greedy-maximal matching semantics (the character classes involved make
these regexes backtracking-free). -/

/-- The left brace character. -/
def lbChar : Char := Char.ofNat 123

/-- The right brace character. -/
def rbChar : Char := Char.ofNat 125

/-- `[A-Za-z_]`: the first character of a shell identifier. -/
def isIdentStart (c : Char) : Bool :=
  ('A' ≤ c && c ≤ 'Z') || ('a' ≤ c && c ≤ 'z') || c = '_'

/-- `[A-Za-z0-9_]`: a shell identifier character (also regex `\w`). -/
def isIdentChar (c : Char) : Bool := isIdentStart c || ('0' ≤ c && c ≤ '9')

/-- Go regexp `\s`: `[\t\n\f\r ]`. -/
def isRegexSpace (c : Char) : Bool :=
  c = ' ' || c = '\t' || c = '\n' || c = Char.ofNat 12 || c = '\r'

/-- Maximal identifier munch: `[A-Za-z_][A-Za-z0-9_]*` at the head of the
list, returning the identifier (possibly empty when the head is not an
identifier start) and the remainder. -/
def takeIdent : List Char → List Char × List Char
  | [] => ([], [])
  | c :: cs =>
    if isIdentStart c then (c :: cs.takeWhile isIdentChar, cs.dropWhile isIdentChar)
    else ([], c :: cs)

/-- The safe allow-list (`index/redact.go:12`, `safeVars`). -/
def safeVars : List (List Char) :=
  ["HOME".data, "USER".data, "PWD".data, "OLDPWD".data,
   "SHELL".data, "PATH".data, "LANG".data, "TERM".data,
   "EDITOR".data, "PAGER".data, "HOSTNAME".data, "LOGNAME".data,
   "TMPDIR".data, "XDG_CONFIG_HOME".data, "XDG_DATA_HOME".data,
   "XDG_RUNTIME_DIR".data, "DISPLAY".data, "WAYLAND_DISPLAY".data,
   "HISTFILE".data, "HISTSIZE".data, "SHLVL".data,
   "COLUMNS".data, "LINES".data, "LC_ALL".data, "LC_CTYPE".data]

/-- The shell special parameters (`index/redact.go:23`,
`specialParams`). -/
def specialParams : List (List Char) :=
  ["?".data, "!".data, "#".data, "@".data, "*".data,
   "-".data, "$".data, "_".data,
   "0".data, "1".data, "2".data, "3".data, "4".data,
   "5".data, "6".data, "7".data, "8".data, "9".data]

/-- The replacement name `REDACTED`. -/
def redactedName : List Char := "REDACTED".data

/-- The assignment-value sentinel `***`. -/
def starsSentinel : List Char := "***".data

/-- `safeVars[name]`. -/
def safeName (n : List Char) : Bool := safeVars.contains n

/-- `safeVars[name] || specialParams[name]`: the keep condition of the
two reference passes. -/
def keepRefName (n : List Char) : Bool := safeName n || specialParams.contains n

/-- A reference name the redacted output is allowed to carry: safe,
special, or the sentinel `REDACTED` itself. -/
def goodRefName (n : List Char) : Bool := keepRefName n || n = redactedName

/-- Match `\{([A-Za-z_][A-Za-z0-9_]*)\}` (the part of `reBraceVar` after
the `$`): an identifier wrapped in braces, returning it and the
remainder after the closing brace. -/
def braceRef (cs : List Char) : Option (List Char × List Char) :=
  match cs with
  | c :: cs' =>
    if c = lbChar then
      let name := (takeIdent cs').1
      if name = [] then none
      else
        match (takeIdent cs').2 with
        | r :: rest' => if r = rbChar then some (name, rest') else none
        | [] => none
    else none
  | [] => none

/-- Match `([A-Za-z_][A-Za-z0-9_]*)=(\S+)` (the pattern `reAssign`
without its leading `\b`, which the callers check): identifier, `=`,
then a maximal non-empty run of non-whitespace as the value. -/
def tryAssign (l : List Char) : Option (List Char × List Char × List Char) :=
  let name := (takeIdent l).1
  if name = [] then none
  else
    match (takeIdent l).2 with
    | '=' :: rest2 =>
      let value := rest2.takeWhile fun c => !isRegexSpace c
      if value = [] then none
      else some (name, value, rest2.dropWhile fun c => !isRegexSpace c)
    | _ => none

theorem takeIdent_snd_length_le (l : List Char) : (takeIdent l).2.length ≤ l.length := by
  match l with
  | [] => simp [takeIdent]
  | c :: cs =>
    simp only [takeIdent]
    split
    · have := (List.dropWhile_sublist (l := cs) isIdentChar).length_le
      simp only [List.length_cons]
      omega
    · simp

theorem braceRef_length {cs : List Char} {name rest : List Char}
    (h : braceRef cs = some (name, rest)) : rest.length < cs.length := by
  match cs with
  | [] => simp [braceRef] at h
  | c :: cs' =>
    simp only [braceRef] at h
    split at h
    · split at h
      · cases h
      · have h2 := takeIdent_snd_length_le cs'
        split at h
        · next r rest' heq =>
          split at h
          · cases h
            rw [heq] at h2
            simp only [List.length_cons] at h2 ⊢
            omega
          · cases h
        · cases h
    · cases h

theorem tryAssign_length {l : List Char} {name value rest : List Char}
    (h : tryAssign l = some (name, value, rest)) : rest.length < l.length := by
  simp only [tryAssign] at h
  by_cases hn : (takeIdent l).1 = []
  · rw [if_pos hn] at h; cases h
  · rw [if_neg hn] at h
    have h2 := takeIdent_snd_length_le l
    split at h
    · next rest2 heq =>
      rw [heq] at h2
      simp only [List.length_cons] at h2
      split at h
      · cases h
      · cases h
        have := (List.dropWhile_sublist (l := rest2) (fun c => !isRegexSpace c)).length_le
        omega
    · cases h

/-- The `${VAR}` pass (`index/redact.go:129`, `reBraceVar` replacement):
every `${name}` occurrence with a name outside the allow-lists becomes
`${REDACTED}`. -/
def bracePass : List Char → List Char
  | [] => []
  | c :: cs =>
    if c = '$' then
      match hb : braceRef cs with
      | some (name, rest) =>
        (if keepRefName name then '$' :: lbChar :: (name ++ [rbChar])
         else '$' :: lbChar :: (redactedName ++ [rbChar])) ++ bracePass rest
      | none => '$' :: bracePass cs
    else c :: bracePass cs
termination_by l => l.length
decreasing_by
  · have := braceRef_length hb
    simp only [List.length_cons]
    omega
  · simp only [List.length_cons]; omega
  · simp only [List.length_cons]; omega

/-- The `$VAR` pass (`index/redact.go:138`, `reSimpleVar` replacement):
every `$name` occurrence is kept when the name is `REDACTED` (already
redacted by the brace pass) or allow-listed, and becomes `$REDACTED`
otherwise. -/
def simplePass : List Char → List Char
  | [] => []
  | c :: cs =>
    if c = '$' then
      match hb : takeIdent cs with
      | ([], _) => '$' :: simplePass cs
      | (name, rest) =>
        (if name = redactedName || keepRefName name then '$' :: name
         else '$' :: redactedName) ++ simplePass rest
    else c :: simplePass cs
termination_by l => l.length
decreasing_by
  · simp only [List.length_cons]; omega
  · have := takeIdent_snd_length_le cs
    rw [hb] at this
    simp only [List.length_cons] at this ⊢
    omega
  · simp only [List.length_cons]; omega

/-- The last character of the matched assignment decides the word-ness of
the scan position following the match. -/
def endsWordy (value : List Char) : Bool :=
  match value.getLast? with
  | some c => isIdentChar c
  | none => false

/-- The `VAR=value` pass (`index/redact.go:150`, `reAssign` replacement):
at a word boundary (`\b`, tracked by `prevW`), `name=value` keeps its
value when the name is allow-listed and becomes `name=***` otherwise. -/
def assignPass (prevW : Bool) : List Char → List Char
  | [] => []
  | c :: cs =>
    if !prevW && isIdentStart c then
      match ha : tryAssign (c :: cs) with
      | some (name, value, rest) =>
        (if safeName name then name ++ '=' :: value else name ++ '=' :: starsSentinel) ++
          assignPass (endsWordy value) rest
      | none => c :: assignPass (isIdentChar c) cs
    else c :: assignPass (isIdentChar c) cs
termination_by l => l.length
decreasing_by
  · have := tryAssign_length ha
    simp only [List.length_cons] at this ⊢
    omega
  · simp only [List.length_cons]; omega
  · simp only [List.length_cons]; omega

/-- `regexRedact`: the three passes in order — `${VAR}`, then `$VAR`,
then `VAR=value` (`index/redact.go:127-160`). -/
def regexRedact (l : List Char) : List Char := assignPass false (simplePass (bracePass l))

/-! ### Leak checkers

These scanners define, as decidable predicates, the property in the C2
claim: "the output contains no substring of the form `$NAME` or
`${NAME}` where NAME is outside the safe allow-list and the
special-parameter set, and no substring of the form `NAME=value` with a
non-safe NAME whose value is anything other than the sentinel `***`".
Names and matches are read with the same grammar the code itself uses:
maximal identifiers, a word boundary before an assignment name, and
leftmost non-overlapping occurrences; and the redaction sentinels
(`$REDACTED`, `${REDACTED}`, `NAME=***`) are what the redactor is
allowed — indeed required — to emit, so they do not count as leaks. -/

/-- An unsafe `${NAME}` reference occurs somewhere in the string. -/
def braceLeak : List Char → Bool
  | [] => false
  | c :: cs =>
    if c = '$' then
      match hb : braceRef cs with
      | some (name, rest) => if goodRefName name then braceLeak rest else true
      | none => braceLeak cs
    else braceLeak cs
termination_by l => l.length
decreasing_by
  · have := braceRef_length hb
    simp only [List.length_cons]
    omega
  · simp only [List.length_cons]; omega
  · simp only [List.length_cons]; omega

/-- An unsafe `$NAME` reference occurs somewhere in the string. -/
def simpleLeak : List Char → Bool
  | [] => false
  | c :: cs =>
    if c = '$' then
      match hb : takeIdent cs with
      | ([], _) => simpleLeak cs
      | (name, rest) => if goodRefName name then simpleLeak rest else true
    else simpleLeak cs
termination_by l => l.length
decreasing_by
  · simp only [List.length_cons]; omega
  · have := takeIdent_snd_length_le cs
    rw [hb] at this
    simp only [List.length_cons] at this ⊢
    omega
  · simp only [List.length_cons]; omega

/-- An assignment `NAME=value` with a non-safe name and a value other
than `***` occurs at a word boundary somewhere in the string. -/
def assignLeak (prevW : Bool) : List Char → Bool
  | [] => false
  | c :: cs =>
    if !prevW && isIdentStart c then
      match ha : tryAssign (c :: cs) with
      | some (name, value, rest) =>
        if safeName name || value = starsSentinel then assignLeak (endsWordy value) rest
        else true
      | none => assignLeak (isIdentChar c) cs
    else assignLeak (isIdentChar c) cs
termination_by l => l.length
decreasing_by
  · have := tryAssign_length ha
    simp only [List.length_cons] at this ⊢
    omega
  · simp only [List.length_cons]; omega
  · simp only [List.length_cons]; omega

/-- The C2 property: some reference or assignment leak is present. -/
def hasLeak (l : List Char) : Bool := braceLeak l || simpleLeak l || assignLeak false l

/-! ### Scanner equation lemmas -/

theorem bracePass_nil : bracePass [] = [] := by simp [bracePass]

theorem bracePass_cons_of_ne {c : Char} (cs : List Char) (h : ¬c = '$') :
    bracePass (c :: cs) = c :: bracePass cs := by
  rw [bracePass]; simp [h]

theorem bracePass_dollar_some {cs name rest : List Char}
    (hb : braceRef cs = some (name, rest)) :
    bracePass ('$' :: cs) =
      (if keepRefName name then '$' :: lbChar :: (name ++ [rbChar])
       else '$' :: lbChar :: (redactedName ++ [rbChar])) ++ bracePass rest := by
  rw [bracePass]
  simp only [if_pos rfl, if_true]
  split
  · next heq => rw [hb] at heq; cases heq; rfl
  · next heq => rw [hb] at heq; cases heq

theorem bracePass_dollar_none {cs : List Char} (hb : braceRef cs = none) :
    bracePass ('$' :: cs) = '$' :: bracePass cs := by
  rw [bracePass]
  simp only [if_pos rfl, if_true]
  split
  · next heq => rw [hb] at heq; cases heq
  · rfl

theorem simplePass_nil : simplePass [] = [] := by simp [simplePass]

theorem simplePass_cons_of_ne {c : Char} (cs : List Char) (h : ¬c = '$') :
    simplePass (c :: cs) = c :: simplePass cs := by
  rw [simplePass]; simp [h]

theorem simplePass_dollar_nil {cs : List Char} (hb : (takeIdent cs).1 = []) :
    simplePass ('$' :: cs) = '$' :: simplePass cs := by
  rw [simplePass]
  simp only [if_pos rfl, if_true]
  split
  · rfl
  · next hx heq =>
    exact absurd ((congrArg Prod.fst heq).symm.trans hb) hx

theorem simplePass_dollar_some {cs name rest : List Char}
    (hb : takeIdent cs = (name, rest)) (hne : name ≠ []) :
    simplePass ('$' :: cs) =
      (if name = redactedName || keepRefName name then '$' :: name
       else '$' :: redactedName) ++ simplePass rest := by
  rw [simplePass]
  simp only [if_pos rfl, if_true]
  split
  · next heq =>
    rw [hb] at heq
    cases heq
    exact absurd rfl hne
  · next heq => rw [hb] at heq; cases heq; rfl

theorem assignPass_nil (b : Bool) : assignPass b [] = [] := by simp [assignPass]

theorem assignPass_cons_noBoundary {b : Bool} {c : Char} (cs : List Char)
    (h : (!b && isIdentStart c) = false) :
    assignPass b (c :: cs) = c :: assignPass (isIdentChar c) cs := by
  rw [assignPass]
  simp [h]

theorem assignPass_cons_none {c : Char} {cs : List Char}
    (hb : isIdentStart c = true) (ha : tryAssign (c :: cs) = none) :
    assignPass false (c :: cs) = c :: assignPass (isIdentChar c) cs := by
  rw [assignPass]
  simp only [hb, Bool.not_false, Bool.true_and, if_pos rfl, if_true]
  split
  · next heq => rw [ha] at heq; cases heq
  · rfl

theorem assignPass_cons_some {c : Char} {cs name value rest : List Char}
    (hb : isIdentStart c = true) (ha : tryAssign (c :: cs) = some (name, value, rest)) :
    assignPass false (c :: cs) =
      (if safeName name then name ++ '=' :: value else name ++ '=' :: starsSentinel) ++
        assignPass (endsWordy value) rest := by
  rw [assignPass]
  simp only [hb, Bool.not_false, Bool.true_and, if_pos rfl, if_true]
  split
  · next heq => rw [ha] at heq; cases heq; rfl
  · next heq => rw [ha] at heq; cases heq

theorem braceLeak_nil : braceLeak [] = false := by simp [braceLeak]

theorem braceLeak_cons_of_ne {c : Char} (cs : List Char) (h : ¬c = '$') :
    braceLeak (c :: cs) = braceLeak cs := by
  rw [braceLeak]; simp [h]

theorem braceLeak_dollar_some {cs name rest : List Char}
    (hb : braceRef cs = some (name, rest)) :
    braceLeak ('$' :: cs) = if goodRefName name then braceLeak rest else true := by
  rw [braceLeak]
  simp only [if_pos rfl, if_true]
  split
  · next heq => rw [hb] at heq; cases heq; simp [Bool.or_comm]
  · next heq => rw [hb] at heq; cases heq

theorem braceLeak_dollar_none {cs : List Char} (hb : braceRef cs = none) :
    braceLeak ('$' :: cs) = braceLeak cs := by
  rw [braceLeak]
  simp only [if_pos rfl, if_true]
  split
  · next heq => rw [hb] at heq; cases heq
  · rfl

theorem simpleLeak_nil : simpleLeak [] = false := by simp [simpleLeak]

theorem simpleLeak_cons_of_ne {c : Char} (cs : List Char) (h : ¬c = '$') :
    simpleLeak (c :: cs) = simpleLeak cs := by
  rw [simpleLeak]; simp [h]

theorem simpleLeak_dollar_nil {cs : List Char} (hb : (takeIdent cs).1 = []) :
    simpleLeak ('$' :: cs) = simpleLeak cs := by
  rw [simpleLeak]
  simp only [if_pos rfl, if_true]
  split
  · rfl
  · next hx heq =>
    exact absurd ((congrArg Prod.fst heq).symm.trans hb) hx

theorem simpleLeak_dollar_some {cs name rest : List Char}
    (hb : takeIdent cs = (name, rest)) (hne : name ≠ []) :
    simpleLeak ('$' :: cs) = if goodRefName name then simpleLeak rest else true := by
  rw [simpleLeak]
  simp only [if_pos rfl, if_true]
  split
  · next heq =>
    rw [hb] at heq
    cases heq
    exact absurd rfl hne
  · next hx heq => rw [hb] at heq; cases heq; rfl

theorem assignLeak_nil (b : Bool) : assignLeak b [] = false := by simp [assignLeak]

theorem assignLeak_cons_noBoundary {b : Bool} {c : Char} (cs : List Char)
    (h : (!b && isIdentStart c) = false) :
    assignLeak b (c :: cs) = assignLeak (isIdentChar c) cs := by
  rw [assignLeak]
  simp [h]

theorem assignLeak_cons_none {c : Char} {cs : List Char}
    (hb : isIdentStart c = true) (ha : tryAssign (c :: cs) = none) :
    assignLeak false (c :: cs) = assignLeak (isIdentChar c) cs := by
  rw [assignLeak]
  simp only [hb, Bool.not_false, Bool.true_and, if_pos rfl, if_true]
  split
  · next heq => rw [ha] at heq; cases heq
  · rfl

theorem assignLeak_cons_some {c : Char} {cs name value rest : List Char}
    (hb : isIdentStart c = true) (ha : tryAssign (c :: cs) = some (name, value, rest)) :
    assignLeak false (c :: cs) =
      if safeName name || value = starsSentinel then assignLeak (endsWordy value) rest
      else true := by
  rw [assignLeak]
  simp only [hb, Bool.not_false, Bool.true_and, if_pos rfl, if_true]
  split
  · next heq => rw [ha] at heq; cases heq; rfl
  · next heq => rw [ha] at heq; cases heq

/-! ### Identifier-run structure lemmas -/

/-- A non-empty identifier: `[A-Za-z_][A-Za-z0-9_]*`. -/
def identShaped : List Char → Bool
  | [] => false
  | c :: cs => isIdentStart c && cs.all isIdentChar

/-- The list is empty or starts with a non-identifier character. -/
def HeadNotIdent (z : List Char) : Prop := ∀ c, z.head? = some c → isIdentChar c = false

/-- The list is empty or starts with a character that cannot begin an
identifier. -/
def HeadNotIdentStart (z : List Char) : Prop :=
  ∀ c, z.head? = some c → isIdentStart c = false

/-- The list is empty or starts with regex whitespace. -/
def HeadSpaceOrNil (z : List Char) : Prop := ∀ c, z.head? = some c → isRegexSpace c = true

/-- No regex whitespace anywhere. -/
def NoSpace (v : List Char) : Prop := ∀ c ∈ v, isRegexSpace c = false

/-- No dollar sign anywhere. -/
def NoDollar (a : List Char) : Prop := ∀ c ∈ a, ¬c = '$'

theorem isIdentStart_isIdentChar {c : Char} (h : isIdentStart c = true) :
    isIdentChar c = true := by simp [isIdentChar, h]

theorem isRegexSpace_not_identChar {c : Char} (h : isRegexSpace c = true) :
    isIdentChar c = false := by
  simp only [isRegexSpace, Bool.or_eq_true, decide_eq_true_eq] at h
  rcases h with ((((h | h) | h) | h) | h) <;> subst h <;> decide

theorem isRegexSpace_not_identStart {c : Char} (h : isRegexSpace c = true) :
    isIdentStart c = false := by
  simp only [isRegexSpace, Bool.or_eq_true, decide_eq_true_eq] at h
  rcases h with ((((h | h) | h) | h) | h) <;> subst h <;> decide

theorem headSpace_headNotIdent {z : List Char} (h : HeadSpaceOrNil z) : HeadNotIdent z :=
  fun c hc => isRegexSpace_not_identChar (h c hc)

theorem headNotIdent_headNotIdentStart {z : List Char} (h : HeadNotIdent z) :
    HeadNotIdentStart z := by
  intro c hc
  have := h c hc
  cases hs : isIdentStart c
  · rfl
  · rw [isIdentStart_isIdentChar hs] at this; cases this

theorem takeWhile_run {p : Char → Bool} {a z : List Char} (ha : ∀ x ∈ a, p x = true)
    (hz : ∀ c, z.head? = some c → p c = false) :
    a.takeWhile p ++ z.takeWhile p = (a ++ z).takeWhile p ∧ z.takeWhile p = [] := by
  have hz' : z.takeWhile p = [] := by
    cases z with
    | nil => rfl
    | cons w ws => simp [List.takeWhile_cons, hz w rfl]
  refine ⟨?_, hz'⟩
  induction a with
  | nil => simp [hz']
  | cons d ds ih =>
    have hd := ha d (by simp)
    simp only [List.cons_append, List.takeWhile_cons, hd, if_true]
    rw [← ih (fun x hx => ha x (by simp [hx]))]

theorem dropWhile_run {p : Char → Bool} {a z : List Char} (ha : ∀ x ∈ a, p x = true)
    (hz : ∀ c, z.head? = some c → p c = false) : (a ++ z).dropWhile p = z := by
  induction a with
  | nil =>
    cases z with
    | nil => rfl
    | cons w ws => simp [List.dropWhile_cons, hz w rfl]
  | cons d ds ih =>
    have hd := ha d (by simp)
    simp only [List.cons_append, List.dropWhile_cons, hd, if_true]
    exact ih fun x hx => ha x (by simp [hx])

theorem takeWhile_all {p : Char → Bool} {a : List Char} (ha : ∀ x ∈ a, p x = true) :
    a.takeWhile p = a := by
  induction a with
  | nil => rfl
  | cons d ds ih =>
    simp only [List.takeWhile_cons, ha d (by simp), if_true]
    rw [ih fun x hx => ha x (by simp [hx])]

theorem takeIdent_eq (l : List Char) : (takeIdent l).1 ++ (takeIdent l).2 = l := by
  cases l with
  | nil => rfl
  | cons c cs =>
    simp only [takeIdent]
    split
    · simp [List.takeWhile_append_dropWhile]
    · rfl

theorem takeIdent_shape {l : List Char} (h : (takeIdent l).1 ≠ []) :
    identShaped (takeIdent l).1 = true := by
  cases l with
  | nil => exact absurd rfl h
  | cons c cs =>
    simp only [takeIdent] at h ⊢
    by_cases hs : isIdentStart c = true
    · rw [if_pos hs]
      simp only [identShaped, hs, Bool.true_and, List.all_eq_true]
      exact fun x hx => List.mem_takeWhile_imp hx
    · rw [if_neg hs] at h
      exact absurd rfl h

theorem takeIdent_rest_head {l : List Char} (h : (takeIdent l).1 ≠ []) :
    HeadNotIdent (takeIdent l).2 := by
  cases l with
  | nil => exact absurd rfl h
  | cons c cs =>
    simp only [takeIdent] at h ⊢
    by_cases hs : isIdentStart c = true
    · rw [if_pos hs]
      intro d hd
      have := List.head?_dropWhile_not isIdentChar cs
      rw [hd] at this
      simpa using this
    · rw [if_neg hs] at h
      exact absurd rfl h

theorem takeIdent_nil_rest {l : List Char} (h : (takeIdent l).1 = []) :
    (takeIdent l).2 = l := by
  cases l with
  | nil => rfl
  | cons c cs =>
    simp only [takeIdent] at h ⊢
    by_cases hs : isIdentStart c = true
    · rw [if_pos hs] at h
      simp at h
    · rw [if_neg hs]

theorem takeIdent_nil_head {l : List Char} (h : (takeIdent l).1 = []) :
    HeadNotIdentStart l := by
  cases l with
  | nil => intro c hc; cases hc
  | cons c cs =>
    simp only [takeIdent] at h
    by_cases hs : isIdentStart c = true
    · rw [if_pos hs] at h
      simp at h
    · intro d hd
      cases hd
      simpa using hs

theorem takeIdent_head_nil {l : List Char} (h : HeadNotIdentStart l) :
    (takeIdent l).1 = [] := by
  cases l with
  | nil => rfl
  | cons c cs =>
    simp only [takeIdent]
    rw [if_neg (by simp [h c rfl])]

/-- Maximal munch on a well-shaped identifier followed by a non-identifier
character (or nothing) recovers exactly that identifier. -/
theorem takeIdent_run {n z : List Char} (hn : identShaped n = true) (hz : HeadNotIdent z) :
    takeIdent (n ++ z) = (n, z) := by
  match n, hn with
  | c :: cs, hn =>
    simp only [identShaped, Bool.and_eq_true, List.all_eq_true] at hn
    obtain ⟨hc, hcs⟩ := hn
    simp only [List.cons_append, takeIdent, hc, if_true]
    obtain ⟨ht, hz'⟩ := takeWhile_run hcs hz
    rw [← ht, hz', dropWhile_run hcs hz, List.append_nil, takeWhile_all hcs]

theorem identShaped_ne_nil {n : List Char} (h : identShaped n = true) : n ≠ [] := by
  cases n with
  | nil => simp [identShaped] at h
  | cons c cs => simp

theorem identShaped_all_ident {n : List Char} (h : identShaped n = true) :
    ∀ c ∈ n, isIdentChar c = true := by
  cases n with
  | nil => simp [identShaped] at h
  | cons c cs =>
    simp only [identShaped, Bool.and_eq_true, List.all_eq_true] at h
    intro d hd
    rcases List.mem_cons.mp hd with (rfl | hmem)
    · exact isIdentStart_isIdentChar h.1
    · exact h.2 d hmem

theorem identChar_ne_dollar {c : Char} (h : isIdentChar c = true) : ¬c = '$' := by
  intro he; subst he; simp [isIdentChar, isIdentStart] at h

theorem identShaped_noDollar {n : List Char} (h : identShaped n = true) : NoDollar n :=
  fun c hc => identChar_ne_dollar (identShaped_all_ident h c hc)

theorem braceRef_spec {cs n r : List Char} (h : braceRef cs = some (n, r)) :
    cs = lbChar :: (n ++ rbChar :: r) ∧ identShaped n = true := by
  match cs with
  | [] => simp [braceRef] at h
  | c :: cs' =>
    simp only [braceRef] at h
    split at h
    · next hc =>
      subst hc
      split at h
      · cases h
      · next hn =>
        split at h
        · next r' rest' heq =>
          split at h
          · next hr =>
            cases h
            subst hr
            have he := takeIdent_eq cs'
            rw [heq] at he
            exact ⟨congrArg (List.cons lbChar) he.symm, takeIdent_shape hn⟩
          · cases h
        · cases h
    · cases h

theorem braceRef_construct {n z : List Char} (hn : identShaped n = true) :
    braceRef (lbChar :: (n ++ rbChar :: z)) = some (n, z) := by
  have hti : takeIdent (n ++ rbChar :: z) = (n, rbChar :: z) :=
    takeIdent_run hn (by intro c hc; cases hc; decide)
  simp [braceRef, hti, identShaped_ne_nil hn]

theorem tryAssign_spec {l n v r : List Char} (h : tryAssign l = some (n, v, r)) :
    l = n ++ '=' :: (v ++ r) ∧ identShaped n = true ∧ v ≠ [] ∧ NoSpace v ∧
      HeadSpaceOrNil r := by
  simp only [tryAssign] at h
  by_cases hn : (takeIdent l).1 = []
  · rw [if_pos hn] at h; cases h
  · rw [if_neg hn] at h
    split at h
    · next rest2 heq =>
      split at h
      · cases h
      · next hv =>
        cases h
        have he := takeIdent_eq l
        rw [heq] at he
        refine ⟨?_, takeIdent_shape hn, hv, ?_, ?_⟩
        · rw [List.takeWhile_append_dropWhile]
          exact he.symm
        · intro c hc
          have := List.mem_takeWhile_imp hc
          simpa using this
        · intro c hc
          have := List.head?_dropWhile_not (fun c => !isRegexSpace c) rest2
          rw [hc] at this
          simpa using this
    · cases h

theorem tryAssign_construct {n v z : List Char} (hn : identShaped n = true) (hv : v ≠ [])
    (hvs : NoSpace v) (hz : HeadSpaceOrNil z) :
    tryAssign (n ++ '=' :: (v ++ z)) = some (n, v, z) := by
  have hti : takeIdent (n ++ '=' :: (v ++ z)) = (n, '=' :: (v ++ z)) :=
    takeIdent_run hn (by intro c hc; cases hc; decide)
  have hva : ∀ x ∈ v, (!isRegexSpace x) = true := by
    intro x hx; simp [hvs x hx]
  have hza : ∀ c, z.head? = some c → (!isRegexSpace c) = false := by
    intro c hc; simp [hz c hc]
  obtain ⟨ht, hz'⟩ := takeWhile_run hva hza
  simp only [tryAssign, hti]
  rw [if_neg (by simp [identShaped_ne_nil hn])]
  simp only [← ht, hz', List.append_nil, takeWhile_all hva, dropWhile_run hva hza]
  rw [if_neg (by simp [hv])]

/-! ### Head preservation and append transparency of the passes -/

theorem bracePass_head (l : List Char) : (bracePass l).head? = l.head? := by
  match l with
  | [] => simp [bracePass_nil]
  | c :: cs =>
    by_cases hc : c = '$'
    · subst hc
      match hb : braceRef cs with
      | some (name, rest) =>
        rw [bracePass_dollar_some hb]
        split <;> rfl
      | none =>
        rw [bracePass_dollar_none hb]
        rfl
    · rw [bracePass_cons_of_ne cs hc]
      rfl

theorem simplePass_head (l : List Char) : (simplePass l).head? = l.head? := by
  match l with
  | [] => simp [simplePass_nil]
  | c :: cs =>
    by_cases hc : c = '$'
    · subst hc
      match hb : takeIdent cs with
      | ([], _) =>
        rw [simplePass_dollar_nil (by rw [hb])]
        rfl
      | (n :: ns, rest) =>
        rw [simplePass_dollar_some hb (by simp)]
        split <;> rfl
    · rw [simplePass_cons_of_ne cs hc]
      rfl

theorem assignPass_head (b : Bool) (l : List Char) : (assignPass b l).head? = l.head? := by
  match l with
  | [] => simp [assignPass_nil]
  | c :: cs =>
    by_cases hgate : (!b && isIdentStart c) = true
    · have hb : b = false := by
        cases b
        · rfl
        · simp at hgate
      have hs : isIdentStart c = true := by
        cases hs : isIdentStart c
        · rw [hs] at hgate; simp at hgate
        · rfl
      subst hb
      match ha : tryAssign (c :: cs) with
      | some (name, value, rest) =>
        rw [assignPass_cons_some hs ha]
        obtain ⟨hdec, hshape, _, _, _⟩ := tryAssign_spec ha
        match name, identShaped_ne_nil hshape with
        | n0 :: ntail, _ =>
          have : c = n0 := by
            have := congrArg List.head? hdec
            simpa using this
          subst this
          split <;> rfl
      | none =>
        rw [assignPass_cons_none hs ha]
        rfl
    · rw [assignPass_cons_noBoundary cs (by simpa using hgate)]
      rfl

theorem bracePass_append_noDollar {a : List Char} (b : List Char) (ha : NoDollar a) :
    bracePass (a ++ b) = a ++ bracePass b := by
  induction a with
  | nil => rfl
  | cons c cs ih =>
    rw [List.cons_append, bracePass_cons_of_ne _ (ha c (by simp)),
      ih fun x hx => ha x (by simp [hx])]
    rfl

theorem simplePass_append_noDollar {a : List Char} (b : List Char) (ha : NoDollar a) :
    simplePass (a ++ b) = a ++ simplePass b := by
  induction a with
  | nil => rfl
  | cons c cs ih =>
    rw [List.cons_append, simplePass_cons_of_ne _ (ha c (by simp)),
      ih fun x hx => ha x (by simp [hx])]
    rfl

theorem braceLeak_append_noDollar {a : List Char} (b : List Char) (ha : NoDollar a) :
    braceLeak (a ++ b) = braceLeak b := by
  induction a with
  | nil => rfl
  | cons c cs ih =>
    rw [List.cons_append, braceLeak_cons_of_ne _ (ha c (by simp)),
      ih fun x hx => ha x (by simp [hx])]

theorem simpleLeak_append_noDollar {a : List Char} (b : List Char) (ha : NoDollar a) :
    simpleLeak (a ++ b) = simpleLeak b := by
  induction a with
  | nil => rfl
  | cons c cs ih =>
    rw [List.cons_append, simpleLeak_cons_of_ne _ (ha c (by simp)),
      ih fun x hx => ha x (by simp [hx])]

/-! ### Transfer lemmas: pass output aligns with pass input -/

theorem braceRef_none_head {X : List Char} (h : ∀ d, X.head? = some d → ¬d = lbChar) :
    braceRef X = none := by
  cases X with
  | nil => rfl
  | cons c cs => simp [braceRef, h c rfl]

theorem braceRef_none_nilIdent {X : List Char} (h : (takeIdent X).1 = []) :
    braceRef (lbChar :: X) = none := by
  simp [braceRef, h]

theorem braceRef_none_noClose {X : List Char} (h1 : (takeIdent X).1 ≠ [])
    (h2 : ∀ d, (takeIdent X).2.head? = some d → ¬d = rbChar) :
    braceRef (lbChar :: X) = none := by
  simp only [braceRef, if_pos rfl, if_neg h1]
  match hr : (takeIdent X).2 with
  | [] => rfl
  | d :: rest' =>
    have := h2 d (by rw [hr]; rfl)
    simp [this]

theorem braceRef_none_inv {X : List Char} (h : braceRef (lbChar :: X) = none) :
    (takeIdent X).1 = [] ∨
      ((takeIdent X).1 ≠ [] ∧ ∀ d, (takeIdent X).2.head? = some d → ¬d = rbChar) := by
  simp only [braceRef, if_pos rfl] at h
  by_cases hn : (takeIdent X).1 = []
  · exact Or.inl hn
  · rw [if_neg hn] at h
    refine Or.inr ⟨hn, ?_⟩
    intro d hd
    match hr : (takeIdent X).2 with
    | [] => rw [hr] at hd; cases hd
    | e :: rest' =>
      rw [hr] at hd h
      cases hd
      intro he
      simp [he] at h

theorem tryAssign_none_inv {l : List Char} (h : tryAssign l = none)
    (hn : (takeIdent l).1 ≠ []) :
    (∀ r2, (takeIdent l).2 ≠ '=' :: r2) ∨
      (∃ r2, (takeIdent l).2 = '=' :: r2 ∧
        r2.takeWhile (fun c => !isRegexSpace c) = []) := by
  simp only [tryAssign, if_neg hn] at h
  match hr : (takeIdent l).2 with
  | [] => exact Or.inl fun r2 hc => by cases hc
  | e :: r2 =>
    rw [hr] at h
    by_cases he : e = '='
    · subst he
      by_cases hv : r2.takeWhile (fun c => !isRegexSpace c) = []
      · exact Or.inr ⟨r2, rfl, hv⟩
      · simp [hv] at h
    · refine Or.inl fun r2' hc => ?_
      injection hc with h1 h2
      exact he h1

theorem assignPass_copy_identRun {a : List Char} (z : List Char)
    (ha : ∀ x ∈ a, isIdentChar x = true) :
    assignPass true (a ++ z) = a ++ assignPass true z := by
  induction a with
  | nil => rfl
  | cons d ds ih =>
    rw [List.cons_append, assignPass_cons_noBoundary _ (by simp), ha d (by simp),
      ih fun x hx => ha x (by simp [hx])]
    rfl

/-- When the boundary match at the head of an identifier run fails, the
whole run is copied: positions inside it have no word boundary. -/
theorem assignPass_failedMatch {n z : List Char} (hn : identShaped n = true)
    (ha : tryAssign (n ++ z) = none) :
    assignPass false (n ++ z) = n ++ assignPass true z := by
  match n, hn with
  | c :: nt, hn =>
    simp only [identShaped, Bool.and_eq_true, List.all_eq_true] at hn
    rw [List.cons_append, assignPass_cons_none hn.1 (by rwa [← List.cons_append]),
      isIdentStart_isIdentChar hn.1, assignPass_copy_identRun z hn.2]
    rfl

theorem assignLeak_flag_congr {z : List Char} (b1 b2 : Bool) (h : HeadNotIdentStart z) :
    assignLeak b1 z = assignLeak b2 z := by
  cases z with
  | nil => rw [assignLeak_nil, assignLeak_nil]
  | cons c cs =>
    rw [assignLeak_cons_noBoundary cs (by simp [h c rfl]),
      assignLeak_cons_noBoundary cs (by simp [h c rfl])]

theorem takeIdent_nil_congr {X cs : List Char} (hhead : X.head? = cs.head?)
    (h : (takeIdent cs).1 = []) : (takeIdent X).1 = [] := by
  refine takeIdent_head_nil ?_
  intro c hc
  exact takeIdent_nil_head h c (hhead ▸ hc)

/-- `braceRef` finds no match after `bracePass` where it found none
before. -/
theorem braceRef_none_bracePass {cs : List Char} (h : braceRef cs = none) :
    braceRef (bracePass cs) = none := by
  match cs with
  | [] => rw [bracePass_nil]; exact h
  | c :: cs' =>
    by_cases hc : c = lbChar
    · subst hc
      rw [bracePass_cons_of_ne cs' (by decide)]
      rcases braceRef_none_inv h with hnil | ⟨hne, hclose⟩
      · exact braceRef_none_nilIdent
          (takeIdent_nil_congr (bracePass_head cs') hnil)
      · have hshape := takeIdent_shape hne
        have heq := takeIdent_eq cs'
        have hrest := takeIdent_rest_head hne
        conv_lhs => rw [← heq]
        rw [bracePass_append_noDollar _ (identShaped_noDollar hshape)]
        have hti : takeIdent ((takeIdent cs').1 ++ bracePass (takeIdent cs').2) =
            ((takeIdent cs').1, bracePass (takeIdent cs').2) := by
          refine takeIdent_run hshape ?_
          intro d hd
          exact hrest d ((bracePass_head _) ▸ hd)
        refine braceRef_none_noClose (by simp [hti, hne]) ?_
        intro d hd
        rw [hti] at hd
        exact hclose d ((bracePass_head _) ▸ hd)
    · refine braceRef_none_head ?_
      intro d hd
      rw [bracePass_head (c :: cs')] at hd
      cases hd
      exact hc

/-- `braceRef` finds no match after `simplePass` where it found none
before. -/
theorem braceRef_none_simplePass {cs : List Char} (h : braceRef cs = none) :
    braceRef (simplePass cs) = none := by
  match cs with
  | [] => rw [simplePass_nil]; exact h
  | c :: cs' =>
    by_cases hc : c = lbChar
    · subst hc
      rw [simplePass_cons_of_ne cs' (by decide)]
      rcases braceRef_none_inv h with hnil | ⟨hne, hclose⟩
      · exact braceRef_none_nilIdent
          (takeIdent_nil_congr (simplePass_head cs') hnil)
      · have hshape := takeIdent_shape hne
        have heq := takeIdent_eq cs'
        have hrest := takeIdent_rest_head hne
        conv_lhs => rw [← heq]
        rw [simplePass_append_noDollar _ (identShaped_noDollar hshape)]
        have hti : takeIdent ((takeIdent cs').1 ++ simplePass (takeIdent cs').2) =
            ((takeIdent cs').1, simplePass (takeIdent cs').2) := by
          refine takeIdent_run hshape ?_
          intro d hd
          exact hrest d ((simplePass_head _) ▸ hd)
        refine braceRef_none_noClose (by simp [hti, hne]) ?_
        intro d hd
        rw [hti] at hd
        exact hclose d ((simplePass_head _) ▸ hd)
    · refine braceRef_none_head ?_
      intro d hd
      rw [simplePass_head (c :: cs')] at hd
      cases hd
      exact hc

/-- `simplePass` on a good brace reference copies it and recurses after
the closing brace. -/
theorem simplePass_braceChunk {cs nm r : List Char} (hb : braceRef cs = some (nm, r)) :
    simplePass cs = lbChar :: (nm ++ rbChar :: simplePass r) := by
  obtain ⟨hdec, hshape⟩ := braceRef_spec hb
  subst hdec
  rw [simplePass_cons_of_ne _ (by decide),
    simplePass_append_noDollar _ (identShaped_noDollar hshape),
    simplePass_cons_of_ne _ (by decide)]

/-- `assignPass` (boundary state false) on a good brace reference copies
it and recurses after the closing brace. -/
theorem assignPass_braceChunk {cs nm r : List Char} (hb : braceRef cs = some (nm, r)) :
    assignPass false cs = lbChar :: (nm ++ rbChar :: assignPass false r) := by
  obtain ⟨hdec, hshape⟩ := braceRef_spec hb
  subst hdec
  have hta : tryAssign (nm ++ rbChar :: r) = none := by
    have hti : takeIdent (nm ++ rbChar :: r) = (nm, rbChar :: r) :=
      takeIdent_run hshape (by intro d hd; cases hd; decide)
    simp only [tryAssign, hti]
    rw [if_neg (by simp [identShaped_ne_nil hshape])]
    split
    · next heq =>
      injection heq with h1 h2
      exact absurd h1 (by decide)
    · rfl
  rw [assignPass_cons_noBoundary _ (by decide), show isIdentChar lbChar = false by decide,
    assignPass_failedMatch hshape hta, assignPass_cons_noBoundary _ (by simp [show isIdentStart rbChar = false by decide]),
    show isIdentChar rbChar = false by decide]

/-- `assignPass` at a successful boundary match, in closed form. -/
theorem assignPass_matched {l nm v r : List Char} (ha : tryAssign l = some (nm, v, r)) :
    assignPass false l =
      nm ++ '=' :: ((if safeName nm then v else starsSentinel) ++
        assignPass (endsWordy v) r) := by
  obtain ⟨hdec, hsh, hv, hvs, hz⟩ := tryAssign_spec ha
  match nm, identShaped_ne_nil hsh with
  | c :: nt, _ =>
    have hstart : isIdentStart c = true := by
      simp only [identShaped, Bool.and_eq_true] at hsh
      exact hsh.1
    subst hdec
    refine Eq.trans (assignPass_cons_some hstart ha) ?_
    split <;> simp

/-- `assignLeak` at a successful boundary match, in closed form. -/
theorem assignLeak_matched {l nm v r : List Char} (ha : tryAssign l = some (nm, v, r)) :
    assignLeak false l =
      if safeName nm || v = starsSentinel then assignLeak (endsWordy v) r
      else true := by
  obtain ⟨hdec, hsh, hv, hvs, hz⟩ := tryAssign_spec ha
  match nm, identShaped_ne_nil hsh with
  | c :: nt, _ =>
    have hstart : isIdentStart c = true := by
      simp only [identShaped, Bool.and_eq_true] at hsh
      exact hsh.1
    subst hdec
    exact assignLeak_cons_some hstart ha

/-- `braceRef` finds no match after `assignPass` (boundary state false)
where it found none before. -/
theorem braceRef_none_assignPass {cs : List Char} (h : braceRef cs = none) :
    braceRef (assignPass false cs) = none := by
  match cs with
  | [] => rw [assignPass_nil]; exact h
  | c :: cs' =>
    by_cases hc : c = lbChar
    · subst hc
      rw [assignPass_cons_noBoundary cs' (by decide),
        show isIdentChar lbChar = false by decide]
      match hta : tryAssign cs' with
      | some (nm2, v2, r2) =>
        obtain ⟨hdec2, hsh2, hv2, hvs2, hz2⟩ := tryAssign_spec hta
        rw [assignPass_matched hta]
        have hti : takeIdent (nm2 ++ '=' ::
            ((if safeName nm2 then v2 else starsSentinel) ++
              assignPass (endsWordy v2) r2)) =
            (nm2, '=' :: ((if safeName nm2 then v2 else starsSentinel) ++
              assignPass (endsWordy v2) r2)) :=
          takeIdent_run hsh2 (by intro d hd; cases hd; decide)
        refine braceRef_none_noClose ?_ ?_
        · rw [hti]; exact identShaped_ne_nil hsh2
        · rw [hti]; intro d hd; cases hd; decide
      | none =>
        rcases braceRef_none_inv h with hnil | ⟨hne, hclose⟩
        · exact braceRef_none_nilIdent
            (takeIdent_nil_congr (assignPass_head false cs') hnil)
        · have hshape := takeIdent_shape hne
          have hrest := takeIdent_rest_head hne
          have hta2 : tryAssign ((takeIdent cs').1 ++ (takeIdent cs').2) = none := by
            rw [takeIdent_eq]; exact hta
          have hfm := assignPass_failedMatch hshape hta2
          rw [takeIdent_eq] at hfm
          rw [hfm]
          have hti : takeIdent ((takeIdent cs').1 ++ assignPass true (takeIdent cs').2) =
              ((takeIdent cs').1, assignPass true (takeIdent cs').2) := by
            refine takeIdent_run hshape ?_
            intro d hd
            exact hrest d ((assignPass_head _ _) ▸ hd)
          refine braceRef_none_noClose (by simp [hti, hne]) ?_
          intro d hd
          rw [hti] at hd
          exact hclose d ((assignPass_head _ _) ▸ hd)
    · refine braceRef_none_head ?_
      intro d hd
      rw [assignPass_head false (c :: cs')] at hd
      cases hd
      exact hc

theorem takeWhile_append_stop {p : Char → Bool} {z : List Char}
    (hz : ∀ c, z.head? = some c → p c = false) (a : List Char) :
    (a ++ z).takeWhile p = a.takeWhile p := by
  induction a with
  | nil =>
    cases z with
    | nil => rfl
    | cons w ws => simp [List.takeWhile_cons, hz w rfl]
  | cons d ds ih =>
    by_cases hd : p d = true
    · simp only [List.cons_append, List.takeWhile_cons, hd, if_true, ih]
    · have hd' : p d = false := by simpa using hd
      simp [List.takeWhile_cons, hd']

theorem dropWhile_append_stop {p : Char → Bool} {z : List Char}
    (hz : ∀ c, z.head? = some c → p c = false) (a : List Char) :
    (a ++ z).dropWhile p = a.dropWhile p ++ z := by
  induction a with
  | nil =>
    cases z with
    | nil => rfl
    | cons w ws => simp [List.dropWhile_cons, hz w rfl]
  | cons d ds ih =>
    by_cases hd : p d = true
    · simp only [List.cons_append, List.dropWhile_cons, hd, if_true, ih]
    · have hd' : p d = false := by simpa using hd
      simp [List.dropWhile_cons, hd']

/-- When the continuation cannot extend an identifier, maximal munch in
the extended string is maximal munch in the prefix. -/
theorem takeIdent_append_congr {z : List Char} (a : List Char) (hz : HeadNotIdent z) :
    takeIdent (a ++ z) = ((takeIdent a).1, (takeIdent a).2 ++ z) := by
  cases a with
  | nil =>
    have h1 : (takeIdent z).1 = [] :=
      takeIdent_head_nil (headNotIdent_headNotIdentStart hz)
    have h2 := takeIdent_nil_rest h1
    show takeIdent z = (([] : List Char), [] ++ z)
    rw [List.nil_append]
    exact Prod.ext h1 h2
  | cons c a' =>
    show takeIdent (c :: (a' ++ z)) = _
    simp only [takeIdent]
    by_cases hs : isIdentStart c = true
    · rw [if_pos hs, if_pos hs, takeWhile_append_stop hz, dropWhile_append_stop hz]
    · rw [if_neg hs, if_neg hs]
      simp

/-- A brace reference in `a ++ z` with a whitespace (or empty)
continuation `z` never crosses into `z`. -/
theorem braceRef_append_space {z : List Char} (a : List Char) (hz : HeadSpaceOrNil z) :
    braceRef (a ++ z) = (braceRef a).map fun p => (p.1, p.2 ++ z) := by
  have hzi : HeadNotIdent z := headSpace_headNotIdent hz
  cases a with
  | nil =>
    show braceRef z = none
    refine braceRef_none_head fun d hd he => ?_
    subst he
    exact absurd (hz _ hd) (by decide)
  | cons c a' =>
    by_cases hc : c = lbChar
    · subst hc
      have hti := takeIdent_append_congr a' hzi
      show braceRef (lbChar :: (a' ++ z)) = _
      simp only [braceRef, if_pos rfl, hti]
      by_cases hn : (takeIdent a').1 = []
      · simp [hn]
      · rw [if_neg hn, if_neg hn]
        cases hr : (takeIdent a').2 with
        | nil =>
          simp only [List.nil_append]
          cases hz2 : z with
          | nil => rfl
          | cons w ws =>
            have hw : isRegexSpace w = true := hz w (by rw [hz2]; rfl)
            have hwr : ¬w = rbChar := by
              intro he; subst he; exact absurd hw (by decide)
            simp [hwr]
        | cons e rest' =>
          by_cases he : e = rbChar
          · simp [he]
          · simp [he]
    · have h1 : braceRef (c :: (a' ++ z)) = none :=
        braceRef_none_head fun d hd he => by cases hd; exact hc he
      have h2 : braceRef (c :: a') = none :=
        braceRef_none_head fun d hd he => by cases hd; exact hc he
      show braceRef (c :: (a' ++ z)) = _
      rw [h1, h2]
      rfl

/-- A failed boundary match stays failed after the assignment pass has
rewritten the continuation. -/
theorem tryAssign_none_assignPass {c : Char} {cs : List Char} (hs : isIdentStart c = true)
    (h : tryAssign (c :: cs) = none) :
    tryAssign (c :: assignPass (isIdentChar c) cs) = none := by
  have hti : takeIdent (c :: cs) =
      (c :: cs.takeWhile isIdentChar, cs.dropWhile isIdentChar) := by
    simp [takeIdent, hs]
  have hmem : ∀ x ∈ cs.takeWhile isIdentChar, isIdentChar x = true :=
    fun x hx => List.mem_takeWhile_imp hx
  have hz : HeadNotIdent (cs.dropWhile isIdentChar) := by
    intro d hd
    have := List.head?_dropWhile_not isIdentChar cs
    rw [hd] at this
    simpa using this
  have hcs : cs = cs.takeWhile isIdentChar ++ cs.dropWhile isIdentChar :=
    (List.takeWhile_append_dropWhile isIdentChar cs).symm
  rw [isIdentStart_isIdentChar hs]
  conv_lhs => rw [hcs, assignPass_copy_identRun _ hmem]
  have hsh : identShaped (c :: cs.takeWhile isIdentChar) = true := by
    simp only [identShaped, hs, Bool.true_and, List.all_eq_true]
    exact hmem
  have hA : HeadNotIdent (assignPass true (cs.dropWhile isIdentChar)) := by
    intro d hd
    rw [assignPass_head] at hd
    exact hz d hd
  have hti2 : takeIdent (c :: (cs.takeWhile isIdentChar ++
      assignPass true (cs.dropWhile isIdentChar))) =
      (c :: cs.takeWhile isIdentChar, assignPass true (cs.dropWhile isIdentChar)) :=
    takeIdent_run hsh hA
  have hinv := tryAssign_none_inv h (by rw [hti]; simp)
  rw [hti] at hinv
  simp only [tryAssign, hti2]
  rw [if_neg (by simp)]
  split
  · next rest2 heq =>
    have hzh : (cs.dropWhile isIdentChar).head? = some '=' := by
      rw [← assignPass_head true (cs.dropWhile isIdentChar), heq]
      rfl
    cases hz2 : cs.dropWhile isIdentChar with
    | nil => rw [hz2] at hzh; cases hzh
    | cons e zt =>
      rw [hz2] at hzh
      have he : e = '=' := by
        have : some e = some '=' := hzh
        injection this
      subst he
      rcases hinv with ha | ⟨r2, hr2, hw⟩
      · exact absurd hz2 (ha zt)
      · have hzt : zt = r2 := by
          rw [hz2] at hr2
          injection hr2
        subst hzt
        have hstep : assignPass true ('=' :: zt) = '=' :: assignPass false zt := by
          rw [assignPass_cons_noBoundary _ (by simp),
            show isIdentChar '=' = false by decide]
        rw [hz2, hstep] at heq
        have hrest2 : rest2 = assignPass false zt := by
          have : ('=' : Char) :: assignPass false zt = '=' :: rest2 := heq
          injection this with _ h2
          exact h2.symm
        subst hrest2
        rw [if_pos ?hval]
        case hval =>
          cases hzt2 : zt with
          | nil => rw [assignPass_nil, List.takeWhile_nil]
          | cons w ws =>
            have hw' : isRegexSpace w = true := by
              rw [hzt2] at hw
              by_cases hws : isRegexSpace w = true
              · exact hws
              · have : (!isRegexSpace w) = true := by simp [hws]
                rw [List.takeWhile_cons, this] at hw
                cases hw
            have hhead : (assignPass false (w :: ws)).head? = some w := by
              rw [assignPass_head]
              rfl
            cases hA2 : assignPass false (w :: ws) with
            | nil => rw [hA2] at hhead; cases hhead
            | cons u us =>
              rw [hA2] at hhead
              have hu : u = w := by
                have : some u = some w := hhead
                injection this
              subst hu
              simp [List.takeWhile_cons, hw']
  · rfl

/-- Scanning a whitespace-delimited chunk is independent of what follows:
a `$NAME` occurrence lies in the chunk or in the continuation, never
across the boundary. -/
theorem simpleLeak_append_split : ∀ n (v z : List Char), v.length ≤ n → NoSpace v →
    HeadNotIdent z → simpleLeak (v ++ z) = (simpleLeak v || simpleLeak z) := by
  intro n
  induction n with
  | zero =>
    intro v z hlen hv hz
    have hnil : v = [] := List.eq_nil_of_length_eq_zero (Nat.le_zero.mp hlen)
    subst hnil
    rw [simpleLeak_nil, List.nil_append, Bool.false_or]
  | succ n IH =>
    intro v z hlen hv hz
    match v, hv, hlen with
    | [], _, _ => rw [simpleLeak_nil, List.nil_append, Bool.false_or]
    | c :: v', hv, hlen =>
      have hlen' : v'.length ≤ n := by
        simp only [List.length_cons] at hlen
        omega
      have hv' : NoSpace v' := fun x hx => hv x (by simp [hx])
      by_cases hc : c = '$'
      · subst hc
        have hti := takeIdent_append_congr v' hz
        by_cases hn : (takeIdent v').1 = []
        · rw [List.cons_append, simpleLeak_dollar_nil (by rw [hti]; simpa using hn),
            simpleLeak_dollar_nil hn]
          exact IH v' z hlen' hv' hz
        · have hlhs := simpleLeak_dollar_some hti hn
          have hrhs := simpleLeak_dollar_some (@Prod.mk.eta _ _ (takeIdent v')).symm hn
          rw [List.cons_append, hlhs, hrhs]
          by_cases hg : goodRefName (takeIdent v').1 = true
          · rw [if_pos hg, if_pos hg]
            have hrl : (takeIdent v').2.length ≤ n :=
              le_trans (takeIdent_snd_length_le v') hlen'
            have hrv : NoSpace (takeIdent v').2 := by
              intro x hx
              refine hv' x ?_
              rw [← takeIdent_eq v']
              exact List.mem_append_right _ hx
            exact IH (takeIdent v').2 z hrl hrv hz
          · rw [if_neg hg, if_neg hg]
            rw [Bool.true_or]
      · rw [List.cons_append, simpleLeak_cons_of_ne _ hc, simpleLeak_cons_of_ne _ hc]
        exact IH v' z hlen' hv' hz

/-- Same boundary independence for `${NAME}` occurrences. -/
theorem braceLeak_append_split : ∀ n (v z : List Char), v.length ≤ n → NoSpace v →
    HeadSpaceOrNil z → braceLeak (v ++ z) = (braceLeak v || braceLeak z) := by
  intro n
  induction n with
  | zero =>
    intro v z hlen hv hz
    have hnil : v = [] := List.eq_nil_of_length_eq_zero (Nat.le_zero.mp hlen)
    subst hnil
    rw [braceLeak_nil, List.nil_append, Bool.false_or]
  | succ n IH =>
    intro v z hlen hv hz
    match v, hv, hlen with
    | [], _, _ => rw [braceLeak_nil, List.nil_append, Bool.false_or]
    | c :: v', hv, hlen =>
      have hlen' : v'.length ≤ n := by
        simp only [List.length_cons] at hlen
        omega
      have hv' : NoSpace v' := fun x hx => hv x (by simp [hx])
      by_cases hc : c = '$'
      · subst hc
        have hbr := braceRef_append_space v' hz
        cases hb : braceRef v' with
        | none =>
          rw [hb] at hbr
          rw [List.cons_append, braceLeak_dollar_none hbr, braceLeak_dollar_none hb]
          exact IH v' z hlen' hv' hz
        | some p =>
          obtain ⟨nm, r0⟩ := p
          rw [hb] at hbr
          simp only [Option.map] at hbr
          rw [List.cons_append, braceLeak_dollar_some hbr, braceLeak_dollar_some hb]
          by_cases hg : goodRefName nm = true
          · rw [if_pos hg, if_pos hg]
            obtain ⟨hdec, _⟩ := braceRef_spec hb
            have hrl : r0.length ≤ n :=
              le_trans (Nat.le_of_lt (braceRef_length hb)) hlen'
            have hrv : NoSpace r0 := by
              intro x hx
              refine hv' x ?_
              rw [hdec]
              simp [hx]
            exact IH r0 z hrl hrv hz
          · rw [if_neg hg, if_neg hg]
            rw [Bool.true_or]
      · rw [List.cons_append, braceLeak_cons_of_ne _ hc, braceLeak_cons_of_ne _ hc]
        exact IH v' z hlen' hv' hz

/-- The brace pass emits no unsafe `${NAME}`. -/
theorem braceLeak_bracePass (l : List Char) : braceLeak (bracePass l) = false := by
  induction l using bracePass.induct with
  | case1 => rw [bracePass_nil, braceLeak_nil]
  | case2 cs name rest hb ih =>
    rw [bracePass_dollar_some hb]
    have hshape := (braceRef_spec hb).2
    by_cases hk : keepRefName name = true
    · rw [if_pos hk]
      have hgood : goodRefName name = true := by simp [goodRefName, hk]
      have hform : ('$' :: lbChar :: (name ++ [rbChar])) ++ bracePass rest =
          '$' :: lbChar :: (name ++ rbChar :: bracePass rest) := by simp
      rw [hform, braceLeak_dollar_some (braceRef_construct hshape), if_pos hgood]
      exact ih
    · rw [if_neg hk]
      have hgood : goodRefName redactedName = true := by decide
      have hform : ('$' :: lbChar :: (redactedName ++ [rbChar])) ++ bracePass rest =
          '$' :: lbChar :: (redactedName ++ rbChar :: bracePass rest) := by simp
      rw [hform, braceLeak_dollar_some (braceRef_construct (by decide)), if_pos hgood]
      exact ih
  | case3 cs hb ih =>
    rw [bracePass_dollar_none hb, braceLeak_dollar_none (braceRef_none_bracePass hb)]
    exact ih
  | case4 c cs hc ih =>
    rw [bracePass_cons_of_ne cs hc, braceLeak_cons_of_ne _ hc]
    exact ih

/-- The simple pass emits no unsafe `$NAME`. -/
theorem simpleLeak_simplePass (l : List Char) : simpleLeak (simplePass l) = false := by
  induction l using simplePass.induct with
  | case1 => rw [simplePass_nil, simpleLeak_nil]
  | case2 cs snd hb ih =>
    have hnil : (takeIdent cs).1 = [] := by rw [hb]
    rw [simplePass_dollar_nil hnil,
      simpleLeak_dollar_nil (takeIdent_nil_congr (simplePass_head cs) hnil)]
    exact ih
  | case3 cs name rest hne hb ih =>
    have hne' : name ≠ [] := fun h => hne h
    have h1 : (takeIdent cs).1 ≠ [] := by rw [hb]; exact hne'
    have hshape : identShaped name = true := by
      have := takeIdent_shape h1
      rwa [hb] at this
    have hrest : HeadNotIdent rest := by
      have := takeIdent_rest_head h1
      rwa [hb] at this
    rw [simplePass_dollar_some hb hne']
    by_cases hk : (name = redactedName || keepRefName name) = true
    · rw [if_pos hk]
      have hgood : goodRefName name = true := by
        simp only [Bool.or_eq_true, decide_eq_true_eq] at hk
        simp only [goodRefName, Bool.or_eq_true, decide_eq_true_eq]
        rcases hk with h | h
        · right; exact h
        · left; exact h
      have hti2 : takeIdent (name ++ simplePass rest) = (name, simplePass rest) :=
        takeIdent_run hshape (fun d hd => hrest d (by rwa [simplePass_head] at hd))
      have hform : ('$' :: name) ++ simplePass rest =
          '$' :: (name ++ simplePass rest) := by simp
      rw [hform, simpleLeak_dollar_some hti2 hne', if_pos hgood]
      exact ih
    · rw [if_neg hk]
      have hti2 : takeIdent (redactedName ++ simplePass rest) =
          (redactedName, simplePass rest) :=
        takeIdent_run (by decide) (fun d hd => hrest d (by rwa [simplePass_head] at hd))
      have hform : ('$' :: redactedName) ++ simplePass rest =
          '$' :: (redactedName ++ simplePass rest) := by simp
      rw [hform, simpleLeak_dollar_some hti2 (by decide), if_pos (by decide)]
      exact ih
  | case4 c cs hc ih =>
    rw [simplePass_cons_of_ne cs hc, simpleLeak_cons_of_ne _ hc]
    exact ih

/-- The assignment pass emits no assignment leak. -/
theorem assignLeak_assignPass (b : Bool) (l : List Char) :
    assignLeak b (assignPass b l) = false := by
  induction b, l using assignPass.induct with
  | case1 b => rw [assignPass_nil, assignLeak_nil]
  | case2 b c cs hg name value rest ha ih =>
    have hb : b = false := by
      cases b
      · rfl
      · simp at hg
    have hs : isIdentStart c = true := by
      cases hs2 : isIdentStart c
      · rw [hs2] at hg; simp at hg
      · rfl
    subst hb
    obtain ⟨hdec, hshape, hvne, hvs, hzr⟩ := tryAssign_spec ha
    rw [assignPass_matched ha]
    have hheadA : HeadSpaceOrNil (assignPass (endsWordy value) rest) := by
      intro d hd
      rw [assignPass_head] at hd
      exact hzr d hd
    by_cases hsafe : safeName name = true
    · rw [if_pos hsafe]
      have hta2 : tryAssign (name ++ '=' ::
          (value ++ assignPass (endsWordy value) rest)) =
          some (name, value, assignPass (endsWordy value) rest) :=
        tryAssign_construct hshape hvne hvs hheadA
      rw [assignLeak_matched hta2, if_pos (by simp [hsafe])]
      exact ih
    · rw [if_neg hsafe]
      have hta2 : tryAssign (name ++ '=' ::
          (starsSentinel ++ assignPass (endsWordy value) rest)) =
          some (name, starsSentinel, assignPass (endsWordy value) rest) :=
        tryAssign_construct hshape (by decide)
          (by intro c hc; simp [starsSentinel] at hc; subst hc; decide) hheadA
      rw [assignLeak_matched hta2, if_pos (by simp),
        show endsWordy starsSentinel = false by decide,
        assignLeak_flag_congr false (endsWordy value)
          (headNotIdent_headNotIdentStart (headSpace_headNotIdent hheadA))]
      exact ih
  | case3 b c cs hg ha ih =>
    have hb : b = false := by
      cases b
      · rfl
      · simp at hg
    have hs : isIdentStart c = true := by
      cases hs2 : isIdentStart c
      · rw [hs2] at hg; simp at hg
      · rfl
    subst hb
    rw [assignPass_cons_none hs ha,
      assignLeak_cons_none hs (tryAssign_none_assignPass hs ha)]
    exact ih
  | case4 b c cs hg ih =>
    rw [assignPass_cons_noBoundary cs (by simpa using hg),
      assignLeak_cons_noBoundary _ (by simpa using hg)]
    exact ih

theorem identShaped_append_head {n z : List Char} (hn : identShaped n = true) :
    ∀ d, (n ++ z).head? = some d → isIdentStart d = true := by
  match n, identShaped_ne_nil hn with
  | c :: nt, _ =>
    intro d hd
    have hc : isIdentStart c = true := by
      simp only [identShaped, Bool.and_eq_true] at hn
      exact hn.1
    have hcd : some c = some d := hd
    injection hcd with he
    rwa [← he]

/-- The simple pass never introduces an unsafe `${NAME}`. -/
theorem braceLeak_simplePass : ∀ l, braceLeak l = false →
    braceLeak (simplePass l) = false := by
  intro l
  induction l using simplePass.induct with
  | case1 => intro h; rw [simplePass_nil]; exact h
  | case2 cs snd hb ih =>
    intro h
    rw [simplePass_dollar_nil (by rw [hb])]
    cases hbr : braceRef cs with
    | none =>
      have hcs : braceLeak cs = false := by rwa [braceLeak_dollar_none hbr] at h
      rw [braceLeak_dollar_none (braceRef_none_simplePass hbr)]
      exact ih hcs
    | some p =>
      obtain ⟨name, rest⟩ := p
      rw [braceLeak_dollar_some hbr] at h
      by_cases hg : goodRefName name = true
      · rw [if_pos hg] at h
        obtain ⟨hdec, hshape⟩ := braceRef_spec hbr
        have hcs : braceLeak cs = false := by
          rw [hdec, braceLeak_cons_of_ne _ (by decide),
            braceLeak_append_noDollar _ (identShaped_noDollar hshape),
            braceLeak_cons_of_ne _ (by decide)]
          exact h
        have hsp := ih hcs
        have hbr2 : braceRef (simplePass cs) = some (name, simplePass rest) := by
          rw [simplePass_braceChunk hbr]
          exact braceRef_construct hshape
        rw [braceLeak_dollar_some hbr2, if_pos hg]
        rw [simplePass_braceChunk hbr] at hsp
        rwa [braceLeak_cons_of_ne _ (by decide),
          braceLeak_append_noDollar _ (identShaped_noDollar hshape),
          braceLeak_cons_of_ne _ (by decide)] at hsp
      · rw [if_neg hg] at h; cases h
  | case3 cs name rest hne hb ih =>
    intro h
    have hne' : name ≠ [] := fun hx => hne hx
    have h1 : (takeIdent cs).1 ≠ [] := by rw [hb]; exact hne'
    have hshape : identShaped name = true := by
      have := takeIdent_shape h1
      rwa [hb] at this
    have hrest : HeadNotIdent rest := by
      have := takeIdent_rest_head h1
      rwa [hb] at this
    have hdec : cs = name ++ rest := by rw [← takeIdent_eq cs, hb]
    have hbrn : braceRef cs = none := by
      refine braceRef_none_head fun d hd he => ?_
      rw [hdec] at hd
      have := identShaped_append_head hshape d hd
      rw [he] at this
      exact absurd this (by decide)
    have hcs : braceLeak cs = false := by rwa [braceLeak_dollar_none hbrn] at h
    have hrestL : braceLeak rest = false := by
      rw [hdec, braceLeak_append_noDollar _ (identShaped_noDollar hshape)] at hcs
      exact hcs
    rw [simplePass_dollar_some hb hne']
    by_cases hk : (name = redactedName || keepRefName name) = true
    · rw [if_pos hk]
      have hform : ('$' :: name) ++ simplePass rest =
          '$' :: (name ++ simplePass rest) := by simp
      have hbrX : braceRef (name ++ simplePass rest) = none := by
        refine braceRef_none_head fun d hd he => ?_
        have := identShaped_append_head hshape d hd
        rw [he] at this
        exact absurd this (by decide)
      rw [hform, braceLeak_dollar_none hbrX,
        braceLeak_append_noDollar _ (identShaped_noDollar hshape)]
      exact ih hrestL
    · rw [if_neg hk]
      have hform : ('$' :: redactedName) ++ simplePass rest =
          '$' :: (redactedName ++ simplePass rest) := by simp
      have hbrX : braceRef (redactedName ++ simplePass rest) = none := by
        refine braceRef_none_head fun d hd he => ?_
        have := identShaped_append_head (n := redactedName) (by decide) d hd
        rw [he] at this
        exact absurd this (by decide)
      rw [hform, braceLeak_dollar_none hbrX,
        braceLeak_append_noDollar _ (identShaped_noDollar (by decide))]
      exact ih hrestL
  | case4 c cs hc ih =>
    intro h
    rw [simplePass_cons_of_ne cs hc, braceLeak_cons_of_ne _ hc]
    exact ih (by rwa [braceLeak_cons_of_ne _ hc] at h)

/-- The assignment pass never introduces an unsafe `${NAME}`. -/
theorem braceLeak_assignPass : ∀ b l, braceLeak l = false →
    braceLeak (assignPass b l) = false := by
  intro b l
  induction b, l using assignPass.induct with
  | case1 b => intro h; rw [assignPass_nil]; exact h
  | case2 b c cs hg name value rest ha ih =>
    intro h
    have hb : b = false := by
      cases b
      · rfl
      · simp at hg
    subst hb
    obtain ⟨hdec, hshape, hvne, hvs, hzr⟩ := tryAssign_spec ha
    have hvr : braceLeak (value ++ rest) = false := by
      rw [hdec] at h
      rwa [braceLeak_append_noDollar _ (identShaped_noDollar hshape),
        braceLeak_cons_of_ne _ (by decide)] at h
    rw [braceLeak_append_split value.length value rest le_rfl hvs hzr] at hvr
    have hvl : braceLeak value = false := by
      cases hx : braceLeak value
      · rfl
      · rw [hx, Bool.true_or] at hvr; cases hvr
    have hrl : braceLeak rest = false := by
      cases hx : braceLeak rest
      · rfl
      · rw [hx, Bool.or_true] at hvr; cases hvr
    have hA := ih hrl
    have hheadA : HeadSpaceOrNil (assignPass (endsWordy value) rest) :=
      fun d hd => hzr d (by rwa [assignPass_head] at hd)
    rw [assignPass_matched ha,
      braceLeak_append_noDollar _ (identShaped_noDollar hshape),
      braceLeak_cons_of_ne _ (by decide)]
    by_cases hsafe : safeName name = true
    · rw [if_pos hsafe,
        braceLeak_append_split value.length value _ le_rfl hvs hheadA, hvl, hA]
      rfl
    · rw [if_neg hsafe,
        braceLeak_append_noDollar _
          (by intro x hx; simp [starsSentinel] at hx; subst hx; decide)]
      exact hA
  | case3 b c cs hg ha ih =>
    intro h
    have hb : b = false := by
      cases b
      · rfl
      · simp at hg
    have hs : isIdentStart c = true := by
      cases hs2 : isIdentStart c
      · rw [hs2] at hg; simp at hg
      · rfl
    subst hb
    have hc : ¬c = '$' := fun he => by
      rw [he] at hs
      exact absurd hs (by decide)
    rw [assignPass_cons_none hs ha, braceLeak_cons_of_ne _ hc]
    exact ih (by rwa [braceLeak_cons_of_ne _ hc] at h)
  | case4 b c cs hg ih =>
    intro h
    rw [assignPass_cons_noBoundary cs (by simpa using hg)]
    by_cases hc : c = '$'
    · subst hc
      rw [show isIdentChar '$' = false by decide]
      cases hbr : braceRef cs with
      | none =>
        have hcs : braceLeak cs = false := by rwa [braceLeak_dollar_none hbr] at h
        rw [braceLeak_dollar_none (braceRef_none_assignPass hbr)]
        have := ih hcs
        rwa [show isIdentChar '$' = false by decide] at this
      | some p =>
        obtain ⟨name, rest⟩ := p
        rw [braceLeak_dollar_some hbr] at h
        by_cases hgn : goodRefName name = true
        · rw [if_pos hgn] at h
          obtain ⟨hdec, hshape⟩ := braceRef_spec hbr
          have hcs : braceLeak cs = false := by
            rw [hdec, braceLeak_cons_of_ne _ (by decide),
              braceLeak_append_noDollar _ (identShaped_noDollar hshape),
              braceLeak_cons_of_ne _ (by decide)]
            exact h
          have hAP := ih hcs
          rw [show isIdentChar '$' = false by decide] at hAP
          have hbr2 : braceRef (assignPass false cs) =
              some (name, assignPass false rest) := by
            rw [assignPass_braceChunk hbr]
            exact braceRef_construct hshape
          rw [braceLeak_dollar_some hbr2, if_pos hgn]
          rw [assignPass_braceChunk hbr] at hAP
          rwa [braceLeak_cons_of_ne _ (by decide),
            braceLeak_append_noDollar _ (identShaped_noDollar hshape),
            braceLeak_cons_of_ne _ (by decide)] at hAP
        · rw [if_neg hgn] at h; cases h
    · rw [braceLeak_cons_of_ne _ hc]
      exact ih (by rwa [braceLeak_cons_of_ne _ hc] at h)

/-- The assignment pass never introduces an unsafe `$NAME`. -/
theorem simpleLeak_assignPass : ∀ b l, simpleLeak l = false →
    simpleLeak (assignPass b l) = false := by
  intro b l
  induction b, l using assignPass.induct with
  | case1 b => intro h; rw [assignPass_nil]; exact h
  | case2 b c cs hg name value rest ha ih =>
    intro h
    have hb : b = false := by
      cases b
      · rfl
      · simp at hg
    subst hb
    obtain ⟨hdec, hshape, hvne, hvs, hzr⟩ := tryAssign_spec ha
    have hvr : simpleLeak (value ++ rest) = false := by
      rw [hdec] at h
      rwa [simpleLeak_append_noDollar _ (identShaped_noDollar hshape),
        simpleLeak_cons_of_ne _ (by decide)] at h
    rw [simpleLeak_append_split value.length value rest le_rfl hvs
      (headSpace_headNotIdent hzr)] at hvr
    have hvl : simpleLeak value = false := by
      cases hx : simpleLeak value
      · rfl
      · rw [hx, Bool.true_or] at hvr; cases hvr
    have hrl : simpleLeak rest = false := by
      cases hx : simpleLeak rest
      · rfl
      · rw [hx, Bool.or_true] at hvr; cases hvr
    have hA := ih hrl
    have hheadA : HeadNotIdent (assignPass (endsWordy value) rest) :=
      fun d hd => headSpace_headNotIdent hzr d (by rwa [assignPass_head] at hd)
    rw [assignPass_matched ha,
      simpleLeak_append_noDollar _ (identShaped_noDollar hshape),
      simpleLeak_cons_of_ne _ (by decide)]
    by_cases hsafe : safeName name = true
    · rw [if_pos hsafe,
        simpleLeak_append_split value.length value _ le_rfl hvs hheadA, hvl, hA]
      rfl
    · rw [if_neg hsafe,
        simpleLeak_append_noDollar _
          (by intro x hx; simp [starsSentinel] at hx; subst hx; decide)]
      exact hA
  | case3 b c cs hg ha ih =>
    intro h
    have hb : b = false := by
      cases b
      · rfl
      · simp at hg
    have hs : isIdentStart c = true := by
      cases hs2 : isIdentStart c
      · rw [hs2] at hg; simp at hg
      · rfl
    subst hb
    have hc : ¬c = '$' := fun he => by
      rw [he] at hs
      exact absurd hs (by decide)
    rw [assignPass_cons_none hs ha, simpleLeak_cons_of_ne _ hc]
    exact ih (by rwa [simpleLeak_cons_of_ne _ hc] at h)
  | case4 b c cs hg ih =>
    intro h
    rw [assignPass_cons_noBoundary cs (by simpa using hg)]
    by_cases hc : c = '$'
    · subst hc
      rw [show isIdentChar '$' = false by decide]
      by_cases hn : (takeIdent cs).1 = []
      · have hcs : simpleLeak cs = false := by rwa [simpleLeak_dollar_nil hn] at h
        have hAP := ih hcs
        rw [show isIdentChar '$' = false by decide] at hAP
        rw [simpleLeak_dollar_nil (takeIdent_nil_congr (assignPass_head false cs) hn)]
        exact hAP
      · have hshape := takeIdent_shape hn
        have hrest := takeIdent_rest_head hn
        rw [simpleLeak_dollar_some (@Prod.mk.eta _ _ (takeIdent cs)).symm hn] at h
        by_cases hgn : goodRefName (takeIdent cs).1 = true
        · rw [if_pos hgn] at h
          have hcs : simpleLeak cs = false := by
            rw [← takeIdent_eq cs,
              simpleLeak_append_noDollar _ (identShaped_noDollar hshape)]
            exact h
          have hAP := ih hcs
          rw [show isIdentChar '$' = false by decide] at hAP
          cases hta : tryAssign cs with
          | some t =>
            obtain ⟨nm2, v2, r2⟩ := t
            obtain ⟨hdec2, hsh2, _, _, _⟩ := tryAssign_spec hta
            have hticomp : takeIdent cs = (nm2, '=' :: (v2 ++ r2)) := by
              rw [hdec2]
              exact takeIdent_run hsh2 (by intro d hd; cases hd; decide)
            have hcomp : nm2 = (takeIdent cs).1 := by rw [hticomp]
            have hti2 : ∀ X : List Char, takeIdent (nm2 ++ '=' :: X) =
                (nm2, '=' :: X) :=
              fun X => takeIdent_run hsh2 (by intro d hd; cases hd; decide)
            rw [assignPass_matched hta,
              simpleLeak_dollar_some (hti2 _) (identShaped_ne_nil hsh2),
              if_pos (hcomp ▸ hgn), simpleLeak_cons_of_ne _ (by decide)]
            rw [assignPass_matched hta] at hAP
            rwa [simpleLeak_append_noDollar _ (identShaped_noDollar hsh2),
              simpleLeak_cons_of_ne _ (by decide)] at hAP
          | none =>
            have hta2 : tryAssign ((takeIdent cs).1 ++ (takeIdent cs).2) = none := by
              rw [takeIdent_eq]
              exact hta
            have hfm := assignPass_failedMatch hshape hta2
            rw [takeIdent_eq] at hfm
            have htiA : takeIdent ((takeIdent cs).1 ++
                assignPass true (takeIdent cs).2) =
                ((takeIdent cs).1, assignPass true (takeIdent cs).2) :=
              takeIdent_run hshape
                (fun d hd => hrest d (by rwa [assignPass_head] at hd))
            rw [hfm, simpleLeak_dollar_some htiA hn, if_pos hgn]
            rw [hfm] at hAP
            rwa [simpleLeak_append_noDollar _ (identShaped_noDollar hshape)] at hAP
        · rw [if_neg hgn] at h; cases h
    · rw [simpleLeak_cons_of_ne _ hc]
      exact ih (by rwa [simpleLeak_cons_of_ne _ hc] at h)

/-- A `${VAR}`-leak-free string is a fixpoint of the brace pass. -/
theorem bracePass_fix : ∀ l, braceLeak l = false → bracePass l = l := by
  intro l
  induction l using bracePass.induct with
  | case1 => intro _; exact bracePass_nil
  | case2 cs name rest hb ih =>
    intro h
    rw [braceLeak_dollar_some hb] at h
    by_cases hg : goodRefName name = true
    · rw [if_pos hg] at h
      obtain ⟨hdec, hshape⟩ := braceRef_spec hb
      rw [bracePass_dollar_some hb, ih h]
      by_cases hk : keepRefName name = true
      · rw [if_pos hk, hdec]
        simp
      · rw [if_neg hk]
        have hred : name = redactedName := by
          simp only [goodRefName, Bool.or_eq_true, decide_eq_true_eq] at hg
          rcases hg with hx | hx
          · exact absurd hx hk
          · exact hx
        rw [hdec, hred]
        simp
    · rw [if_neg hg] at h; cases h
  | case3 cs hb ih =>
    intro h
    rw [braceLeak_dollar_none hb] at h
    rw [bracePass_dollar_none hb, ih h]
  | case4 c cs hc ih =>
    intro h
    rw [braceLeak_cons_of_ne _ hc] at h
    rw [bracePass_cons_of_ne _ hc, ih h]

/-- A `$VAR`-leak-free string is a fixpoint of the simple pass. -/
theorem simplePass_fix : ∀ l, simpleLeak l = false → simplePass l = l := by
  intro l
  induction l using simplePass.induct with
  | case1 => intro _; exact simplePass_nil
  | case2 cs snd hb ih =>
    intro h
    have hnil : (takeIdent cs).1 = [] := by rw [hb]
    rw [simpleLeak_dollar_nil hnil] at h
    rw [simplePass_dollar_nil hnil, ih h]
  | case3 cs name rest hne hb ih =>
    intro h
    have hne' : name ≠ [] := fun hx => hne hx
    rw [simpleLeak_dollar_some hb hne'] at h
    by_cases hg : goodRefName name = true
    · rw [if_pos hg] at h
      have hcond : (name = redactedName || keepRefName name) = true := by
        simp only [goodRefName, Bool.or_eq_true, decide_eq_true_eq] at hg
        simp only [Bool.or_eq_true, decide_eq_true_eq]
        tauto
      have hdec : cs = name ++ rest := by rw [← takeIdent_eq cs, hb]
      rw [simplePass_dollar_some hb hne', ih h, if_pos hcond, hdec]
      simp
    · rw [if_neg hg] at h; cases h
  | case4 c cs hc ih =>
    intro h
    rw [simpleLeak_cons_of_ne _ hc] at h
    rw [simplePass_cons_of_ne _ hc, ih h]

/-- An assignment-leak-free string is a fixpoint of the assignment pass. -/
theorem assignPass_fix : ∀ b l, assignLeak b l = false → assignPass b l = l := by
  intro b l
  induction b, l using assignPass.induct with
  | case1 b => intro _; exact assignPass_nil b
  | case2 b c cs hg name value rest ha ih =>
    intro h
    have hb : b = false := by
      cases b
      · rfl
      · simp at hg
    have hs : isIdentStart c = true := by
      cases hs2 : isIdentStart c
      · rw [hs2] at hg; simp at hg
      · rfl
    subst hb
    obtain ⟨hdec, hshape, hvne, hvs, hzr⟩ := tryAssign_spec ha
    rw [assignLeak_cons_some hs ha] at h
    by_cases hcond : (safeName name || value = starsSentinel) = true
    · rw [if_pos hcond] at h
      rw [assignPass_cons_some hs ha, ih h]
      by_cases hsafe : safeName name = true
      · rw [if_pos hsafe, hdec]
        simp
      · rw [if_neg hsafe]
        have hvstars : value = starsSentinel := by
          simp only [Bool.or_eq_true, decide_eq_true_eq] at hcond
          rcases hcond with hx | hx
          · exact absurd hx hsafe
          · exact hx
        rw [hdec, hvstars]
        simp
    · rw [if_neg hcond] at h; cases h
  | case3 b c cs hg ha ih =>
    intro h
    have hb : b = false := by
      cases b
      · rfl
      · simp at hg
    have hs : isIdentStart c = true := by
      cases hs2 : isIdentStart c
      · rw [hs2] at hg; simp at hg
      · rfl
    subst hb
    rw [assignLeak_cons_none hs ha] at h
    rw [assignPass_cons_none hs ha, ih h]
  | case4 b c cs hg ih =>
    intro h
    rw [assignLeak_cons_noBoundary _ (by simpa using hg)] at h
    rw [assignPass_cons_noBoundary _ (by simpa using hg), ih h]

/-- The regex fallback's output never contains an unsafe `${NAME}`,
`$NAME`, or `NAME=value` occurrence. -/
theorem hasLeak_regexRedact (l : List Char) : hasLeak (regexRedact l) = false := by
  rw [hasLeak, regexRedact,
    braceLeak_assignPass false _ (braceLeak_simplePass _ (braceLeak_bracePass l)),
    simpleLeak_assignPass false _ (simpleLeak_simplePass _),
    assignLeak_assignPass false _]
  rfl

/-- The regex fallback is idempotent. -/
theorem regexRedact_idem (l : List Char) :
    regexRedact (regexRedact l) = regexRedact l := by
  have h := hasLeak_regexRedact l
  rw [hasLeak] at h
  have h1 : braceLeak (regexRedact l) = false := by
    cases hx : braceLeak (regexRedact l)
    · rfl
    · rw [hx] at h; simp at h
  have h2 : simpleLeak (regexRedact l) = false := by
    cases hx : simpleLeak (regexRedact l)
    · rfl
    · rw [hx] at h; simp at h
  have h3 : assignLeak false (regexRedact l) = false := by
    cases hx : assignLeak false (regexRedact l)
    · rfl
    · rw [hx] at h; simp at h
  rw [regexRedact, bracePass_fix _ h1, simplePass_fix _ h2, assignPass_fix false _ h3]

/-! ### The shell-syntax-tree redaction path

`RedactCommand` (`index/redact.go:33-60`) parses the command with the
third-party `mvdan.cc/sh` parser, walks the tree, and prints it back;
that library's source is not part of this repository.  Modelled from the
spec: words are sequences of parts — plain literals, single-quoted
strings (whose content is literal and preserved), double-quoted strings
(whose parameter expansions are redacted), and parameter expansions
`$NAME` / `${NAME}`; the walk replaces the name of every parameter
expansion outside the allow-lists with `REDACTED`, and the value of
every assignment whose name is not allow-listed with the single literal
`***`. -/

/-- Modelled from the spec: a word part inside a double-quoted string. -/
inductive QPart where
  | qlit (s : List Char)
  | qparam (braced : Bool) (name : List Char)
deriving DecidableEq, Repr

/-- Modelled from the spec: a part of a shell word. -/
inductive WordPart where
  | lit (s : List Char)
  | sglQuoted (s : List Char)
  | dblQuoted (ps : List QPart)
  | paramExp (braced : Bool) (name : List Char)
deriving DecidableEq, Repr

/-- Modelled from the spec: a `NAME=value` assignment node. -/
structure Assign where
  name : List Char
  value : List WordPart
deriving DecidableEq, Repr

/-- Modelled from the spec: one element of a simple command. -/
inductive CmdElem where
  | asgn (a : Assign)
  | word (w : List WordPart)
deriving DecidableEq, Repr

/-- Modelled from the spec: a simple command, elements space-separated. -/
def Cmd := List CmdElem

/-- The walk's `ParamExp` action on a part inside double quotes
(`index/redact.go:43-46`). -/
def redactQPart : QPart → QPart
  | .qlit s => .qlit s
  | .qparam b n => .qparam b (if keepRefName n then n else redactedName)

/-- The walk's `ParamExp` action on a word part. -/
def redactPart : WordPart → WordPart
  | .lit s => .lit s
  | .sglQuoted s => .sglQuoted s
  | .dblQuoted ps => .dblQuoted (ps.map redactQPart)
  | .paramExp b n => .paramExp b (if keepRefName n then n else redactedName)

/-- The walk's `Assign` action (`index/redact.go:47-50`): a non-safe
name's value becomes the single literal `***`; a safe name's value is
walked. -/
def redactAssign (a : Assign) : Assign :=
  if safeName a.name then ⟨a.name, a.value.map redactPart⟩
  else ⟨a.name, [.lit starsSentinel]⟩

def redactElem : CmdElem → CmdElem
  | .asgn a => .asgn (redactAssign a)
  | .word w => .word (w.map redactPart)

/-- The whole tree walk of `RedactCommand`. -/
def redactCmd (c : Cmd) : Cmd := c.map redactElem

/-- Printing a double-quoted part back to text. -/
def printQPart : QPart → List Char
  | .qlit s => s
  | .qparam braced n =>
    if braced then '$' :: lbChar :: (n ++ [rbChar]) else '$' :: n

/-- Printing a word part back to text. -/
def printPart : WordPart → List Char
  | .lit s => s
  | .sglQuoted s => sqChar :: (s ++ [sqChar])
  | .dblQuoted ps => dqChar :: ((ps.map printQPart).flatten ++ [dqChar])
  | .paramExp braced n =>
    if braced then '$' :: lbChar :: (n ++ [rbChar]) else '$' :: n

def printWord (w : List WordPart) : List Char := (w.map printPart).flatten

def printElem : CmdElem → List Char
  | .asgn a => a.name ++ '=' :: printWord a.value
  | .word w => printWord w

/-- Printing the command back to text. -/
def printCmd (c : Cmd) : List Char := joinSpace (c.map printElem)

/-- Tree-level redactedness: every parameter expansion outside single
quotes carries an allow-listed or sentinel name, and every non-safe
assignment's value is the sentinel `***`. -/
def qpartRedacted : QPart → Bool
  | .qlit _ => true
  | .qparam _ n => goodRefName n

def partRedacted : WordPart → Bool
  | .lit _ => true
  | .sglQuoted _ => true
  | .dblQuoted ps => ps.all qpartRedacted
  | .paramExp _ n => goodRefName n

def elemRedacted : CmdElem → Bool
  | .asgn a =>
    (safeName a.name || decide (a.value = [.lit starsSentinel])) &&
      a.value.all partRedacted
  | .word w => w.all partRedacted

def cmdRedacted (c : Cmd) : Bool := c.all elemRedacted

theorem qpartRedacted_redactQPart (p : QPart) : qpartRedacted (redactQPart p) = true := by
  cases p with
  | qlit s => rfl
  | qparam b n =>
    simp only [redactQPart]
    by_cases hk : keepRefName n = true
    · rw [if_pos hk]
      simp [qpartRedacted, goodRefName, hk]
    · rw [if_neg hk]
      simp [qpartRedacted, show goodRefName redactedName = true by decide]

theorem partRedacted_redactPart (p : WordPart) : partRedacted (redactPart p) = true := by
  cases p with
  | lit s => rfl
  | sglQuoted s => rfl
  | dblQuoted ps =>
    simp only [redactPart, partRedacted, List.all_map, List.all_eq_true]
    intro x _
    exact qpartRedacted_redactQPart x
  | paramExp b n =>
    simp only [redactPart]
    by_cases hk : keepRefName n = true
    · rw [if_pos hk]
      simp [partRedacted, goodRefName, hk]
    · rw [if_neg hk]
      simp [partRedacted, show goodRefName redactedName = true by decide]

theorem elemRedacted_redactElem (e : CmdElem) : elemRedacted (redactElem e) = true := by
  cases e with
  | asgn a =>
    simp only [redactElem, redactAssign]
    by_cases hsafe : safeName a.name = true
    · rw [if_pos hsafe]
      simp only [elemRedacted, hsafe, Bool.true_or, Bool.true_and, List.all_map,
        List.all_eq_true]
      intro x _
      exact partRedacted_redactPart x
    · rw [if_neg hsafe]
      simp [elemRedacted, partRedacted]
  | word w =>
    simp only [redactElem, elemRedacted, List.all_map, List.all_eq_true]
    intro x _
    exact partRedacted_redactPart x

/-- The tree walk leaves every node of its output redacted. -/
theorem cmdRedacted_redactCmd (c : Cmd) : cmdRedacted (redactCmd c) = true := by
  simp only [cmdRedacted, redactCmd, List.all_map, List.all_eq_true]
  intro x _
  exact elemRedacted_redactElem x

theorem redactQPart_idem (p : QPart) : redactQPart (redactQPart p) = redactQPart p := by
  cases p with
  | qlit s => rfl
  | qparam b n =>
    simp only [redactQPart]
    by_cases hk : keepRefName n = true
    · rw [if_pos hk, if_pos hk]
    · rw [if_neg hk, if_neg (by decide)]

theorem redactPart_idem (p : WordPart) : redactPart (redactPart p) = redactPart p := by
  cases p with
  | lit s => rfl
  | sglQuoted s => rfl
  | dblQuoted ps =>
    simp only [redactPart, List.map_map]
    congr 1
    exact List.map_congr_left fun x _ => redactQPart_idem x
  | paramExp b n =>
    simp only [redactPart]
    by_cases hk : keepRefName n = true
    · rw [if_pos hk, if_pos hk]
    · rw [if_neg hk, if_neg (by decide)]

theorem redactAssign_idem (a : Assign) : redactAssign (redactAssign a) = redactAssign a := by
  simp only [redactAssign]
  by_cases hsafe : safeName a.name = true
  · rw [if_pos hsafe]
    simp only [if_pos hsafe, List.map_map]
    congr 1
    exact List.map_congr_left fun x _ => redactPart_idem x
  · rw [if_neg hsafe]
    simp only [if_neg hsafe]

theorem redactElem_idem (e : CmdElem) : redactElem (redactElem e) = redactElem e := by
  cases e with
  | asgn a => simp only [redactElem, redactAssign_idem]
  | word w =>
    simp only [redactElem, List.map_map]
    congr 1
    exact List.map_congr_left fun x _ => redactPart_idem x

/-- The tree walk is idempotent. -/
theorem redactCmd_idem (c : Cmd) : redactCmd (redactCmd c) = redactCmd c := by
  simp only [redactCmd, List.map_map]
  exact List.map_congr_left fun x _ => redactElem_idem x

/-- The counterexample command `echo '$SECRET_TOKEN'` — the repo's own
test suite checks that the tree path leaves it unchanged. -/
def c2Cmd : Cmd :=
  [CmdElem.word [WordPart.lit "echo".data],
   CmdElem.word [WordPart.sglQuoted "$SECRET_TOKEN".data]]

def c2Str : List Char := "echo ".data ++ sqChar :: ("$SECRET_TOKEN".data ++ [sqChar])

/-- C2 (counterexample): on the syntax-tree path, the single-quoted
literal `$SECRET_TOKEN` — `SECRET_TOKEN` being outside both allow-lists —
is preserved verbatim, so the redacted output of `echo '$SECRET_TOKEN'`
still contains the unsafe substring `$SECRET_TOKEN`, contradicting the
claim's "for every shell command string, the output contains no
substring of the form $NAME … outside the safe allow-list". -/
theorem c2_counterexample_single_quote_preserved :
    printCmd (redactCmd c2Cmd) = c2Str ∧ hasLeak c2Str = true := by
  constructor
  · decide
  · have hsimple : simpleLeak c2Str = true := by
      have h0 : c2Str = 'e' :: 'c' :: 'h' :: 'o' :: ' ' :: sqChar :: '$' ::
          ("SECRET_TOKEN".data ++ [sqChar]) := by decide
      rw [h0, simpleLeak_cons_of_ne _ (by decide), simpleLeak_cons_of_ne _ (by decide),
        simpleLeak_cons_of_ne _ (by decide), simpleLeak_cons_of_ne _ (by decide),
        simpleLeak_cons_of_ne _ (by decide), simpleLeak_cons_of_ne _ (by decide),
        simpleLeak_dollar_some (by decide : takeIdent ("SECRET_TOKEN".data ++ [sqChar]) =
          ("SECRET_TOKEN".data, [sqChar])) (by decide),
        if_neg (by decide)]
    rw [hasLeak, hsimple]
    simp

/-- C2 (amended): redaction never leaks, path by path — the regex
fallback's output never contains an unsafe `${NAME}`, `$NAME`, or
non-safe `NAME=value` occurrence (with the sentinels `${REDACTED}`,
`$REDACTED`, `NAME=***` as the allowed residue), and the syntax-tree
walk leaves every parameter expansion outside single quotes allow-listed
or `REDACTED` and every non-safe assignment value equal to `***`;
single-quoted content is preserved verbatim by design. -/
theorem c2_redaction_never_leaks :
    (∀ l : List Char, hasLeak (regexRedact l) = false) ∧
      (∀ c : Cmd, cmdRedacted (redactCmd c) = true) :=
  ⟨hasLeak_regexRedact, cmdRedacted_redactCmd⟩

/-- C6: redaction is idempotent on both paths — the regex fallback is
idempotent as a string transformation, and the syntax-tree walk is
idempotent as a tree transformation. -/
theorem c6_redaction_idempotent :
    (∀ l : List Char, regexRedact (regexRedact l) = regexRedact l) ∧
      (∀ c : Cmd, redactCmd (redactCmd c) = redactCmd c) :=
  ⟨regexRedact_idem, redactCmd_idem⟩

/-! ### `Engine.Complete` (`generate/main.go:112-185`) -/

/-- A completion request (`ashlet.go`, type `Request`). -/
structure Request where
  requestID : Int
  sessionID : List Char
  input : List Char
  cursorPos : Int
  cwd : List Char
  maxCandidates : Int
deriving DecidableEq, Repr

/-- A completion response, with an error represented by its code
(`ashlet.go`, types `Response` and `Error`; the human-readable message
string carries no control flow). -/
structure Response where
  candidates : List Candidate
  errorCode : Option String
deriving DecidableEq, Repr

def notConfiguredCode : String := "not_configured"

def apiErrorCode : String := "api_error"

/-- Go string slicing `s[:i]`: panics — modelled as `none` — unless
`0 ≤ i ≤ len(s)`. -/
def goSliceTo (s : List Char) (i : Int) : Option (List Char) :=
  if 0 ≤ i ∧ i ≤ (s.length : Int) then some (s.take i.toNat) else none

/-- Go string slicing `s[i:]`: panics — modelled as `none` — unless
`0 ≤ i ≤ len(s)`. -/
def goSliceFrom (s : List Char) (i : Int) : Option (List Char) :=
  if 0 ≤ i ∧ i ≤ (s.length : Int) then some (s.drop i.toNat) else none

/-- The `Input:` line of `buildUserMessage` (`generate/main.go:326-336`):
`before := req.Input[:req.CursorPos]`, `after := req.Input[req.CursorPos:]`,
with the `█` marker inserted only when `after` is non-empty.  The earlier
lines of the user message (cwd, directory context, redacted recent and
related commands) are plain concatenations that cannot fail and feed no
control flow back into `Complete`, so the model keeps only the one
construction that can panic. -/
def buildInputLine (input : List Char) (cursorPos : Int) : Option (List Char) :=
  match goSliceTo input cursorPos, goSliceFrom input cursorPos with
  | some b, some a =>
    some (btChar :: (b ++ (if 0 < a.length then ['█'] else []) ++ a ++ [btChar]))
  | _, _ => none

/-- The environment `Engine.Complete` consults besides the request:
whether a generation API key is configured (`e.generator != nil`), the
gathered history context, whether the request context is already
cancelled, and the generator's reply — `.error` models `Generate`
returning an error (`generate/main.go:112-185`). -/
structure CompleteEnv where
  hasGenerator : Bool
  info : Info
  ctxCancelled : Bool
  genResult : Except (List Char) (List Char)

/-- `Engine.Complete` (`generate/main.go:112-185`), in source order:
generator-nil check; trailing-newline trim of input and cwd;
upper-bound-only cursor clamp; whitespace-only check; cancellation
check; candidate-count default; user-message construction (which panics
— `none` — on a negative cursor); generation; then parse, quote-filter,
and re-rank of the reply.  The boolean records whether the generator was
invoked. -/
def complete (env : CompleteEnv) (req : Request) : Option (Response × Bool) :=
  if env.hasGenerator = false then
    some ({ candidates := [], errorCode := some notConfiguredCode }, false)
  else
    let input1 := trimRightNewlines req.input
    let cursor1 : Int :=
      if (input1.length : Int) < req.cursorPos then (input1.length : Int)
      else req.cursorPos
    if trimSpace input1 = [] then
      some ({ candidates := [], errorCode := none }, false)
    else if env.ctxCancelled then
      some ({ candidates := [], errorCode := none }, false)
    else
      let maxC : Nat :=
        if req.maxCandidates ≤ 0 then DefaultMaxCandidates else req.maxCandidates.toNat
      match buildInputLine input1 cursor1 with
      | none => none
      | some _ =>
        match env.genResult with
        | .error _ => some ({ candidates := [], errorCode := some apiErrorCode }, true)
        | .ok output =>
          let input2 := trimLeftSpaceTab input1
          let cands := sortCandidates
            (filterCandidateQuotes (parseCandidates output input2 maxC) input2) input2
          some ({ candidates := cands, errorCode := none }, true)

/-- Every request with a non-negative cursor runs to a response: the
upper clamp brings the cursor into `[0, len(input)]`, so the user-message
slices are in range. -/
theorem complete_total_of_nonneg (env : CompleteEnv) (req : Request)
    (h : 0 ≤ req.cursorPos) : (complete env req).isSome = true := by
  simp only [complete]
  split
  · rfl
  · split
    · rfl
    · split
      · rfl
      · have hb : (buildInputLine (trimRightNewlines req.input)
            (if ((trimRightNewlines req.input).length : Int) < req.cursorPos
             then ((trimRightNewlines req.input).length : Int)
             else req.cursorPos)).isSome = true := by
          have hcond : 0 ≤ (if ((trimRightNewlines req.input).length : Int) < req.cursorPos
              then ((trimRightNewlines req.input).length : Int) else req.cursorPos) ∧
              (if ((trimRightNewlines req.input).length : Int) < req.cursorPos
               then ((trimRightNewlines req.input).length : Int) else req.cursorPos) ≤
                ((trimRightNewlines req.input).length : Int) := by
            constructor <;> split <;> omega
          simp only [buildInputLine, goSliceTo, goSliceFrom]
          rw [if_pos hcond, if_pos hcond]
          rfl
        obtain ⟨m, hm⟩ := Option.isSome_iff_exists.mp hb
        rw [hm]
        cases env.genResult <;> rfl

def c4Req : Request := ⟨1, [], [], 0, [], 0⟩

def c4EnvNoKey : CompleteEnv := ⟨false, ⟨[], []⟩, false, .ok []⟩

def c4EnvKey : CompleteEnv := ⟨true, ⟨[], []⟩, false, .ok []⟩

/-- C4 (counterexample): with an empty input AND no generation API key,
`Complete` returns the `not_configured` error — the generator-nil check
precedes the empty-input check (the repo's own test notes "expect
not_configured error before checking input") — contradicting the claim's
"regardless of whether a generation API key is configured … no error". -/
theorem c4_counterexample_empty_input_without_key :
    trimSpace (trimRightNewlines c4Req.input) = [] ∧
      complete c4EnvNoKey c4Req =
        some ({ candidates := [], errorCode := some notConfiguredCode }, false) :=
  ⟨rfl, rfl⟩

/-- C4 (amended): with a generator configured, empty or whitespace-only
input (after trailing-newline trim) yields an empty candidate list, no
error, and no model call; without a generator, `Complete` returns the
`not_configured` error with an empty candidate list and no model call,
regardless of the input — the generator check runs first. -/
theorem c4_empty_input_short_circuit :
    (∀ env req, env.hasGenerator = true →
        trimSpace (trimRightNewlines req.input) = [] →
        complete env req = some ({ candidates := [], errorCode := none }, false)) ∧
      (∀ env req, env.hasGenerator = false →
        complete env req =
          some ({ candidates := [], errorCode := some notConfiguredCode }, false)) := by
  constructor
  · intro env req hgen hempty
    simp only [complete, hgen]
    simp [hempty]
  · intro env req hgen
    simp only [complete, hgen]
    simp

theorem c4_empty_input_short_circuit_witness :
    complete c4EnvKey c4Req = some ({ candidates := [], errorCode := none }, false) ∧
      complete c4EnvNoKey c4Req =
        some ({ candidates := [], errorCode := some notConfiguredCode }, false) :=
  ⟨c4_empty_input_short_circuit.1 c4EnvKey c4Req rfl (by decide),
    c4_empty_input_short_circuit.2 c4EnvNoKey c4Req rfl⟩

def c5Req : Request := ⟨7, [], "git st".data, -1, [], 0⟩

def c5Env : CompleteEnv := ⟨true, ⟨[], []⟩, false, .ok []⟩

/-- C5: the cursor clamp only handles the upper bound
(`generate/main.go:129-131`, `if req.CursorPos > len(req.Input)`); a
request with `cursor_pos = -1` and non-blank input reaches
`buildUserMessage`, where the Go slice `req.Input[:req.CursorPos]`
panics — modelled by `complete` returning `none` — contradicting the
claim that clamping covers negative values and the slicing never
panics.  `complete_total_of_nonneg` shows every non-negative cursor is
safe, so the missing lower clamp is exactly the divergence. -/
theorem c5_negative_cursor_panics :
    c5Req.cursorPos = -1 ∧ trimSpace (trimRightNewlines c5Req.input) ≠ [] ∧
      complete c5Env c5Req = none :=
  ⟨rfl, by decide, rfl⟩

end Ashlet
